import Mathlib

/-!
# Huffman compressor (`src/huffman.cpp`): shallow embedding and verified properties

Modelling conventions.

* A `std::string` is a `List Char`; a `char` is a `Char`, compared by code point.  The
  general theorems below do not depend on how `Compare` orders two nodes; the
  evaluations on concrete texts use ASCII letters, for which a signed and an unsigned
  `char` compare alike.
* An `int` frequency is a `Nat`: counts are taken without overflow.
* A `shared_ptr<HuffmanNode>` is a value of `HuffmanNode`: the null pointer, or a node
  with the four fields of the C++ struct.  A node whose two child pointers are null is
  a leaf; nothing in the type forces the two children to be null together.
* An `unordered_map` is an association list with distinct keys, kept in order of first
  insertion.  The order in which a range-for visits the entries of an `unordered_map`
  is not fixed by the language; it is a parameter (`Enumeration`).
* `std::priority_queue` is `std::vector` with `push_back` + `std::push_heap` and
  `std::pop_heap` + `pop_back`; the two heap algorithms are the ones of libstdc++
  (`__push_heap`, `__adjust_heap`, `__pop_heap` in `bits/stl_heap.h`).
* Dereferencing a null pointer is undefined behaviour in C++; the embedding reports it
  as `Fault.nullDereference`.
* Console output is not modelled.
-/

namespace Huffman

/-! ## Data model -/

/-- A `shared_ptr<HuffmanNode>`: null, or a node with `character`, `frequency`, `left`, `right`. -/
inductive HuffmanNode where
  | null : HuffmanNode
  | node (character : Char) (frequency : Nat) (left right : HuffmanNode) : HuffmanNode
  deriving DecidableEq, Repr, Inhabited

namespace HuffmanNode

/-- The test `!p` on a pointer. -/
def isNull : HuffmanNode → Bool
  | null => true
  | node _ _ _ _ => false

/-- The field `p->character`. -/
def character : HuffmanNode → Char
  | null => Char.ofNat 0
  | node c _ _ _ => c

/-- The field `p->frequency`. -/
def frequency : HuffmanNode → Nat
  | null => 0
  | node _ f _ _ => f

/-- The constructor `HuffmanNode(char ch, int freq)`: both children null. -/
def leaf (ch : Char) (freq : Nat) : HuffmanNode := node ch freq null null

/-- The constructor `HuffmanNode(int freq)` followed by the two assignments
`merged->left = left; merged->right = right;` of `buildHuffmanTree`. -/
def merged (left right : HuffmanNode) : HuffmanNode :=
  node (Char.ofNat 0) (left.frequency + right.frequency) left right

end HuffmanNode

open HuffmanNode

/-- The comparator `Compare::operator()`. -/
def Compare (a b : HuffmanNode) : Bool :=
  if a.frequency = b.frequency then decide (a.character > b.character)
  else decide (a.frequency > b.frequency)

/-! ## `std::priority_queue` over a vector (libstdc++ heap algorithms) -/

/-- The loop of `std::__push_heap(first, holeIndex, topIndex, value, comp)`.
The first argument bounds the number of iterations; `holeIndex` is enough, since the
hole moves to its parent `(holeIndex - 1) / 2` at every iteration. -/
def pushHeapLoop (value : HuffmanNode) (topIndex : Nat) :
    Nat → List HuffmanNode → Nat → List HuffmanNode
  | 0, first, holeIndex => first.set holeIndex value
  | fuel + 1, first, holeIndex =>
    let parent := (holeIndex - 1) / 2
    if holeIndex > topIndex && Compare (first.getD parent null) value then
      pushHeapLoop value topIndex fuel (first.set holeIndex (first.getD parent null)) parent
    else
      first.set holeIndex value

/-- The function `std::__push_heap`. -/
def pushHeap (first : List HuffmanNode) (holeIndex topIndex : Nat) (value : HuffmanNode) :
    List HuffmanNode :=
  pushHeapLoop value topIndex holeIndex first holeIndex

/-- The first loop of `std::__adjust_heap`: the hole walks down towards the larger
child.  Returns the vector, `holeIndex` and `secondChild`.  The first argument bounds
the number of iterations; `len` is enough, since `secondChild` grows at every one. -/
def adjustHeapLoop (len : Nat) :
    Nat → List HuffmanNode → Nat → Nat → List HuffmanNode × Nat × Nat
  | 0, first, holeIndex, secondChild => (first, holeIndex, secondChild)
  | fuel + 1, first, holeIndex, secondChild =>
    if secondChild < (len - 1) / 2 then
      let sc := 2 * (secondChild + 1)
      let sc := if Compare (first.getD sc null) (first.getD (sc - 1) null) then sc - 1 else sc
      adjustHeapLoop len fuel (first.set holeIndex (first.getD sc null)) sc sc
    else
      (first, holeIndex, secondChild)

/-- The function `std::__adjust_heap(first, holeIndex, len, value, comp)`. -/
def adjustHeap (first : List HuffmanNode) (holeIndex len : Nat) (value : HuffmanNode) :
    List HuffmanNode :=
  let topIndex := holeIndex
  let (first, holeIndex, secondChild) := adjustHeapLoop len len first holeIndex holeIndex
  if len % 2 = 0 ∧ secondChild = (len - 2) / 2 then
    let sc := 2 * (secondChild + 1)
    pushHeap (first.set holeIndex (first.getD (sc - 1) null)) (sc - 1) topIndex value
  else
    pushHeap first holeIndex topIndex value

/-- The call `minHeap.push(x)`: `c.push_back(x); std::push_heap(c.begin(), c.end(), comp)`. -/
def push (c : List HuffmanNode) (x : HuffmanNode) : List HuffmanNode :=
  pushHeap (c ++ [x]) c.length 0 x

/-- The call `minHeap.top()`: `c.front()`.  The code calls it on a non-empty queue only. -/
def top (c : List HuffmanNode) : HuffmanNode := c.headD null

/-- The call `minHeap.pop()`: `std::pop_heap(c.begin(), c.end(), comp); c.pop_back()`.
With more than one element, `pop_heap` saves the last element as `value`, stores the
first element in the last slot (the slot `pop_back` then removes) and runs
`__adjust_heap` on the range without that slot. -/
def pop (c : List HuffmanNode) : List HuffmanNode :=
  if c.length > 1 then
    adjustHeap c.dropLast 0 (c.length - 1) (c.getLastD null)
  else
    c.dropLast

/-! ## `unordered_map` -/

/-- The access `m[k]` used as an lvalue and updated by `f`: the entry of `k` is created
with the value-initialised `dflt` when it is absent. -/
def mapUpdate {β : Type} (dflt : β) (f : β → β) (k : Char) :
    List (Char × β) → List (Char × β)
  | [] => [(k, f dflt)]
  | (k', v) :: rest =>
    if k' = k then (k', f v) :: rest else (k', v) :: mapUpdate dflt f k rest

/-- The value read by `m[k]`. -/
def mapGet {β : Type} (dflt : β) (k : Char) (m : List (Char × β)) : β :=
  (m.lookup k).getD dflt

/-- An order in which a range-for visits the entries of an `unordered_map`. -/
structure Enumeration where
  /-- The visiting order of the entries of a table. -/
  order : List (Char × Nat) → List (Char × Nat)
  /-- Every entry is visited exactly once. -/
  perm : ∀ l, (order l).Perm l

/-- The enumeration that visits entries in order of first insertion. -/
def Enumeration.insertion : Enumeration := ⟨id, fun _ => List.Perm.refl _⟩

/-- The private members of `HuffmanCompressor`. -/
structure HuffmanCompressor where
  frequencyTable : List (Char × Nat)
  huffmanCodes : List (Char × List Char)
  root : HuffmanNode
  deriving DecidableEq, Repr

/-- A default-constructed `HuffmanCompressor`: empty maps and a null root. -/
def HuffmanCompressor.new : HuffmanCompressor := ⟨[], [], null⟩

/-- The method `buildFrequencyTable`: `clear()`, then `frequencyTable[ch]++` per character. -/
def buildFrequencyTable (text : List Char) : List (Char × Nat) :=
  text.foldl (fun table ch => mapUpdate 0 (· + 1) ch table) []

/-- The `while (minHeap.size() > 1)` loop of `buildHuffmanTree`.  The first argument
bounds the number of iterations; the size of the heap is enough, since every iteration
removes two nodes and adds one. -/
def buildLoop : Nat → List HuffmanNode → List HuffmanNode
  | 0, minHeap => minHeap
  | fuel + 1, minHeap =>
    if minHeap.length > 1 then
      let left := top minHeap
      let minHeap := pop minHeap
      let right := top minHeap
      let minHeap := pop minHeap
      buildLoop fuel (push minHeap (merged left right))
    else
      minHeap

/-- The method `buildHuffmanTree`, on the entries of `frequencyTable` in visiting order;
the result is the new `root`. -/
def buildHuffmanTree (entries : List (Char × Nat)) : HuffmanNode :=
  let minHeap := entries.foldl (fun h p => push h (leaf p.1 p.2)) []
  let minHeap := buildLoop minHeap.length minHeap
  if minHeap.isEmpty then null else top minHeap

/-- The method `generateCodes(node, code)`, threading the member `huffmanCodes`. -/
def generateCodes : HuffmanNode → List Char → List (Char × List Char) → List (Char × List Char)
  | null, _, codes => codes
  | node ch _ l r, code, codes =>
    if l.isNull && r.isNull then
      mapUpdate [] (fun _ => if code.isEmpty then ['0'] else code) ch codes
    else
      generateCodes r (code ++ ['1']) (generateCodes l (code ++ ['0']) codes)

/-- Step 4 of `compress`: `compressedData += huffmanCodes[ch]` per character.  Returns
the data and the map, in which `operator[]` created an empty code for every character
that had none. -/
def encodeText (codes : List (Char × List Char)) (text : List Char) :
    List Char × List (Char × List Char) :=
  text.foldl (fun acc ch => (acc.1 ++ mapGet [] ch acc.2, mapUpdate [] id ch acc.2)) ([], codes)

/-- The method `compress`: the returned string and the compressor afterwards. -/
def compress (E : Enumeration) (s : HuffmanCompressor) (text : List Char) :
    List Char × HuffmanCompressor :=
  if text.isEmpty then ([], s)
  else
    let frequencyTable := buildFrequencyTable text
    let root := buildHuffmanTree (E.order frequencyTable)
    let huffmanCodes := generateCodes root [] []
    let (compressedData, huffmanCodes) := encodeText huffmanCodes text
    (compressedData, ⟨frequencyTable, huffmanCodes, root⟩)

/-- What can go wrong in the C++ code. -/
inductive Fault where
  | nullDereference
  deriving DecidableEq, Repr

/-- One iteration of the `for (char bit : compressedData)` loop of `decompress`, on the
pair (`decompressedText`, `currentNode`). -/
def decodeStep (root : HuffmanNode) (st : List Char × HuffmanNode) (bit : Char) :
    Except Fault (List Char × HuffmanNode) :=
  match st.2 with
  | null => .error .nullDereference
  | node _ _ l r =>
    let currentNode := if bit = '0' then l else r
    match currentNode with
    | null => .error .nullDereference
    | node ch _ l' r' =>
      if l'.isNull && r'.isNull then .ok (st.1 ++ [ch], root)
      else .ok (st.1, currentNode)

/-- The `for (char bit : compressedData)` loop of `decompress`. -/
def decodeLoop (root : HuffmanNode) :
    List Char → List Char × HuffmanNode → Except Fault (List Char × HuffmanNode)
  | [], st => .ok st
  | bit :: rest, st =>
    match decodeStep root st bit with
    | .error e => .error e
    | .ok st' => decodeLoop root rest st'

/-- The method `decompress`. -/
def decompress (s : HuffmanCompressor) (compressedData : List Char) : Except Fault (List Char) :=
  if compressedData.isEmpty || s.root.isNull then .ok []
  else
    match decodeLoop s.root compressedData ([], s.root) with
    | .error e => .error e
    | .ok st => .ok st.1

/-! ## Vocabulary for the properties -/

/-- The leaves of a tree, left to right, each as (`character`, `frequency`).  A leaf is
a node both of whose children are null, as `generateCodes` and `decompress` test it. -/
def leaves : HuffmanNode → List (Char × Nat)
  | null => []
  | node ch f l r => if l.isNull && r.isNull then [(ch, f)] else leaves l ++ leaves r

/-- Every node below the pointer has either no child or two children, and the pointer
itself is not null. -/
def proper : HuffmanNode → Bool
  | null => false
  | node _ _ l r => (l.isNull && r.isNull) || (proper l && proper r)

/-- Every node with a child carries the sum of the frequencies of its two children. -/
def sumsChildren : HuffmanNode → Bool
  | null => true
  | node _ f l r =>
    (l.isNull && r.isNull) || (decide (f = l.frequency + r.frequency) && sumsChildren l && sumsChildren r)

/-- The root-to-leaf paths of a tree, left to right, each with the character of its
leaf: `'0'` for a step to the left child, `'1'` for a step to the right child, after the
path `code` that leads to the tree. -/
def paths : HuffmanNode → List Char → List (Char × List Char)
  | null, _ => []
  | node ch _ l r, code =>
    if l.isNull && r.isNull then [(ch, code)]
    else paths l (code ++ ['0']) ++ paths r (code ++ ['1'])

/-- The number of distinct characters of a text. -/
def distinctSymbols (text : List Char) : Nat := text.dedup.length

/-- The test `!p->left && !p->right` of `generateCodes` and `decompress`, on a pointer
that is not null. -/
def HuffmanNode.isLeaf : HuffmanNode → Bool
  | null => false
  | node _ _ l r => l.isNull && r.isNull

/-! ## The encoder as the specification words it -/

/-- The number of nodes that have a child. -/
def innerCount : HuffmanNode → Nat
  | null => 0
  | node _ _ l r => if l.isNull && r.isNull then 0 else 1 + innerCount l + innerCount r

/-- The node reached from a pointer by a sequence of steps: `'0'` goes to the left
child, any other character to the right child; null once a step leaves the tree. -/
def follow : HuffmanNode → List Char → HuffmanNode
  | t, [] => t
  | null, _ :: _ => null
  | node _ _ l r, bit :: rest => follow (if bit = '0' then l else r) rest

/-- The rank of a node in the order of `Compare`: frequency first, character second
(a character is below 1114112).  `Compare a b` holds exactly when `b` ranks below `a`. -/
def key (x : HuffmanNode) : Nat := x.frequency * 1114112 + x.character.toNat

/-- Overwriting slot `i` trades the old element of the slot for the new one. -/
theorem coe_set_add {α : Type} (d : α) (l : List α) (i : Nat) (a : α) (h : i < l.length) :
    ((l.set i a : List α) : Multiset α) + {l.getD i d} = (l : Multiset α) + {a} := by
  induction l generalizing i with
  | nil => simp at h
  | cons b t ih =>
    cases i with
    | zero =>
      simp only [List.set_cons_zero, List.getD_cons_zero]
      rw [← Multiset.cons_coe, ← Multiset.cons_coe, ← Multiset.singleton_add,
        ← Multiset.singleton_add b]
      abel
    | succ n =>
      have hn : n < t.length := by simpa using h
      have := ih n hn
      simp only [List.set_cons_succ, List.getD_cons_succ]
      rw [← Multiset.cons_coe, ← Multiset.cons_coe, Multiset.cons_add, this, Multiset.cons_add]

/-- Moving the element of slot `j` into the hole `h` and making `j` the hole keeps the
contents of the vector with the hole filled. -/
theorem set_hole_perm {α : Type} (d : α) (l : List α) (h j : Nat) (x : α)
    (hh : h < l.length) (hj : j < l.length) :
    ((l.set h (l.getD j d)).set j x).Perm (l.set h x) := by
  by_cases e : h = j
  · subst e
    rw [List.set_set]
  · rw [← Multiset.coe_eq_coe]
    have h1 := coe_set_add d (l.set h (l.getD j d)) j x (by simpa using hj)
    have h2 := coe_set_add d l h (l.getD j d) hh
    have h3 := coe_set_add d l h x hh
    have e1 : (l.set h (l.getD j d)).getD j d = l.getD j d := by
      simp [List.getD_eq_getElem?_getD, List.getElem?_set_ne e]
    rw [e1] at h1
    have key : (((l.set h (l.getD j d)).set j x : List α) : Multiset α)
        + ({l.getD j d} + {l.getD h d})
        = ((l.set h x : List α) : Multiset α) + ({l.getD j d} + {l.getD h d}) := by
      calc (((l.set h (l.getD j d)).set j x : List α) : Multiset α)
            + ({l.getD j d} + {l.getD h d})
          = ((((l.set h (l.getD j d)).set j x : List α) : Multiset α) + {l.getD j d})
            + {l.getD h d} := by abel
        _ = (((l.set h (l.getD j d) : List α) : Multiset α) + {l.getD h d}) + {x} := by
            rw [h1]; abel
        _ = ((l : Multiset α) + {x}) + {l.getD j d} := by rw [h2]; abel
        _ = ((l.set h x : List α) : Multiset α) + ({l.getD j d} + {l.getD h d}) := by
            rw [← h3]; abel
    exact add_right_cancel key

/-- The loop of `__push_heap` fills the hole with `value`, after moving elements only. -/
theorem pushHeapLoop_perm (value : HuffmanNode) (topIndex fuel : Nat) (first : List HuffmanNode)
    (holeIndex : Nat) (hh : holeIndex < first.length) :
    (pushHeapLoop value topIndex fuel first holeIndex).Perm (first.set holeIndex value) := by
  induction fuel generalizing first holeIndex with
  | zero => simp [pushHeapLoop]
  | succ n ih =>
    simp only [pushHeapLoop]
    split
    · have hp : (holeIndex - 1) / 2 < first.length := by omega
      refine (ih _ _ (by simpa using hp)).trans ?_
      exact set_hole_perm null first holeIndex _ value hh hp
    · exact List.Perm.refl _

theorem pushHeap_perm (first : List HuffmanNode) (holeIndex topIndex : Nat) (value : HuffmanNode)
    (hh : holeIndex < first.length) :
    (pushHeap first holeIndex topIndex value).Perm (first.set holeIndex value) :=
  pushHeapLoop_perm value topIndex holeIndex first holeIndex hh

/-- The first loop of `__adjust_heap` moves elements into the hole only: the hole stays
inside the range, equals `secondChild`, and filling it gives the same contents. -/
theorem adjustHeapLoop_spec (len fuel : Nat) (first : List HuffmanNode) (holeIndex : Nat)
    (hh : holeIndex < len) (hl : len ≤ first.length) :
    (adjustHeapLoop len fuel first holeIndex holeIndex).2.1 < len ∧
    (adjustHeapLoop len fuel first holeIndex holeIndex).2.2
      = (adjustHeapLoop len fuel first holeIndex holeIndex).2.1 ∧
    (adjustHeapLoop len fuel first holeIndex holeIndex).1.length = first.length ∧
    ∀ x, ((adjustHeapLoop len fuel first holeIndex holeIndex).1.set
        (adjustHeapLoop len fuel first holeIndex holeIndex).2.1 x).Perm
      (first.set holeIndex x) := by
  induction fuel generalizing first holeIndex with
  | zero => simp [adjustHeapLoop, hh]
  | succ n ih =>
    simp only [adjustHeapLoop]
    split
    · rename_i hlt
      generalize hsc : (if Compare (first.getD (2 * (holeIndex + 1)) null)
          (first.getD (2 * (holeIndex + 1) - 1) null) = true
          then 2 * (holeIndex + 1) - 1 else 2 * (holeIndex + 1)) = sc
      have hsc_lt : sc < len := by
        rw [← hsc]; split <;> omega
      have := ih (first.set holeIndex (first.getD sc null)) sc hsc_lt (by simpa using hl)
      obtain ⟨h1, h2, h3, h4⟩ := this
      refine ⟨h1, h2, by simpa using h3, fun x => (h4 x).trans ?_⟩
      exact set_hole_perm null first holeIndex sc x (by omega) (by omega)
    · simp [hh]

/-- The function `__adjust_heap`, called on a hole inside the range, fills the hole with
`value` after moving elements only. -/
theorem adjustHeap_perm (first : List HuffmanNode) (holeIndex len : Nat) (value : HuffmanNode)
    (hh : holeIndex < len) (hl : len ≤ first.length) :
    (adjustHeap first holeIndex len value).Perm (first.set holeIndex value) := by
  obtain ⟨h1, h2, h3, h4⟩ := adjustHeapLoop_spec len len first holeIndex hh hl
  unfold adjustHeap
  simp only
  generalize adjustHeapLoop len len first holeIndex holeIndex = r at h1 h2 h3 h4
  obtain ⟨f, hi, sc⟩ := r
  dsimp only at h1 h2 h3 h4
  subst h2
  split
  · rename_i hc
    dsimp only at hc ⊢
    have hlt : 2 * (sc + 1) - 1 < len := by omega
    refine (pushHeap_perm _ _ _ _ (by simp; omega)).trans ?_
    exact (set_hole_perm null f sc _ value (by omega) (by omega)).trans (h4 value)
  · dsimp only
    exact (pushHeap_perm _ _ _ _ (by omega)).trans (h4 value)

/-- The call `push` adds exactly the pushed node to the queue. -/
theorem push_perm (c : List HuffmanNode) (x : HuffmanNode) : (push c x).Perm (x :: c) := by
  unfold push
  refine (pushHeap_perm _ _ _ _ (by simp)).trans ?_
  have : (c ++ [x]).set c.length x = c ++ [x] := by
    rw [List.set_append_right _ _ (le_refl _)]; simp
  rw [this]
  exact List.perm_append_singleton x c

/-- The call `pop` removes exactly the node that `top` returns. -/
theorem pop_perm (c : List HuffmanNode) (hc : c ≠ []) : (top c :: pop c).Perm c := by
  unfold pop top
  split
  · rename_i hlen
    obtain ⟨a, t, rfl⟩ := List.exists_cons_of_ne_nil hc
    have ht : t ≠ [] := by
      intro h; subst h; simp at hlen
    have hp := adjustHeap_perm (a :: t).dropLast 0 ((a :: t).length - 1)
      ((a :: t).getLastD null) (by simp; exact List.length_pos.mpr ht) (by simp)
    have e1 : (a :: t).dropLast = a :: t.dropLast := by
      cases t with
      | nil => exact absurd rfl ht
      | cons b u => rfl
    have e2 : (a :: t).getLastD null = t.getLast ht := by
      cases t with
      | nil => exact absurd rfl ht
      | cons b u => simp [List.getLastD]
    rw [e1, e2] at hp
    rw [e1, e2]
    simp only [List.headD_cons]
    refine (List.Perm.cons a hp).trans ?_
    simp only [List.set_cons_zero]
    refine List.Perm.cons a ?_
    have : t = t.dropLast ++ [t.getLast ht] := (List.dropLast_append_getLast ht).symm
    conv_rhs => rw [this]
    exact (List.perm_append_singleton _ _).symm
  · rename_i hlen
    obtain ⟨a, t, rfl⟩ := List.exists_cons_of_ne_nil hc
    have : t = [] := by
      cases t with
      | nil => rfl
      | cons b u => simp at hlen
    subst this
    simp

/-! ## The iteration bounds of the heap loops are never reached before the loops end -/

/-- The loop of `__push_heap` started at `holeIndex` ends within `holeIndex` iterations:
allowing more changes nothing. -/
theorem pushHeapLoop_fuel (value : HuffmanNode) (topIndex fuel : Nat) (first : List HuffmanNode)
    (holeIndex : Nat) (h : holeIndex ≤ fuel) :
    pushHeapLoop value topIndex (fuel + 1) first holeIndex
      = pushHeapLoop value topIndex fuel first holeIndex := by
  induction fuel generalizing first holeIndex with
  | zero =>
    have : holeIndex = 0 := Nat.le_zero.mp h
    subst this
    simp [pushHeapLoop]
  | succ n ih =>
    rw [pushHeapLoop]
    conv_rhs => rw [pushHeapLoop]
    split
    · rename_i hc
      simp only [Bool.and_eq_true, decide_eq_true_eq] at hc
      exact ih _ _ (by omega)
    · rfl

/-- The first loop of `__adjust_heap` ends within `len - secondChild` iterations:
allowing more changes nothing. -/
theorem adjustHeapLoop_fuel (len fuel : Nat) (first : List HuffmanNode)
    (holeIndex secondChild : Nat) (h : len ≤ secondChild + fuel) :
    adjustHeapLoop len (fuel + 1) first holeIndex secondChild
      = adjustHeapLoop len fuel first holeIndex secondChild := by
  induction fuel generalizing first holeIndex secondChild with
  | zero =>
    have : ¬ secondChild < (len - 1) / 2 := by omega
    simp [adjustHeapLoop, this]
  | succ n ih =>
    rw [adjustHeapLoop]
    conv_rhs => rw [adjustHeapLoop]
    split
    · apply ih
      split <;> omega
    · rfl

/-! ## The frequency table -/

theorem mapUpdate_keys {β : Type} (dflt : β) (f : β → β) (k : Char) (m : List (Char × β)) :
    (mapUpdate dflt f k m).map Prod.fst
      = if k ∈ m.map Prod.fst then m.map Prod.fst else m.map Prod.fst ++ [k] := by
  induction m with
  | nil => simp [mapUpdate]
  | cons p t ih =>
    obtain ⟨k', v⟩ := p
    by_cases h : k' = k
    · subst h; simp [mapUpdate]
    · have h' : ¬ k = k' := fun e => h e.symm
      by_cases hm : k ∈ t.map Prod.fst
      · simp only [mapUpdate, h, if_false, List.map_cons, ih, hm, if_true, List.mem_cons, or_true]
      · simp only [mapUpdate, h, if_false, List.map_cons, ih, hm, List.mem_cons, h', or_self,
          List.cons_append]

theorem mapUpdate_nodup {β : Type} (dflt : β) (f : β → β) (k : Char) (m : List (Char × β))
    (h : (m.map Prod.fst).Nodup) : ((mapUpdate dflt f k m).map Prod.fst).Nodup := by
  rw [mapUpdate_keys]
  split
  · exact h
  · rename_i hk
    rw [List.nodup_append]
    refine ⟨h, List.nodup_singleton k, ?_⟩
    intro a ha hb
    simp only [List.mem_singleton] at hb
    subst hb
    exact hk ha

theorem mapGet_nil {β : Type} (dflt : β) (c : Char) : mapGet dflt c [] = dflt := rfl

theorem mapGet_cons {β : Type} (dflt : β) (c k : Char) (v : β) (t : List (Char × β)) :
    mapGet dflt c ((k, v) :: t) = if c = k then v else mapGet dflt c t := by
  unfold mapGet
  rw [List.lookup_cons]
  by_cases h : c = k
  · subst h; simp
  · have : (c == k) = false := by simpa using h
    simp [this, h]

theorem mapGet_mapUpdate {β : Type} (dflt : β) (f : β → β) (k c : Char) (m : List (Char × β)) :
    mapGet dflt c (mapUpdate dflt f k m)
      = if c = k then f (mapGet dflt k m) else mapGet dflt c m := by
  induction m with
  | nil =>
    simp only [mapUpdate, mapGet_cons, mapGet_nil]
  | cons p t ih =>
    obtain ⟨k', v⟩ := p
    by_cases h : k' = k
    · subst h
      simp only [mapUpdate, if_true, mapGet_cons]
      split <;> rfl
    · simp only [mapUpdate, h, if_false, mapGet_cons, ih]
      have h' : ¬ k = k' := fun e => h e.symm
      by_cases hc : c = k
      · subst hc; simp [h']
      · simp [hc]

theorem mapUpdate_succ_sum (k : Char) (m : List (Char × Nat)) :
    ((mapUpdate 0 (· + 1) k m).map Prod.snd).sum = (m.map Prod.snd).sum + 1 := by
  induction m with
  | nil => simp [mapUpdate]
  | cons p t ih =>
    obtain ⟨k', v⟩ := p
    by_cases h : k' = k
    · simp only [mapUpdate, h, if_true, List.map_cons, List.sum_cons]; omega
    · simp only [mapUpdate, h, if_false, List.map_cons, List.sum_cons, ih]; omega

theorem mapGet_of_mem {β : Type} (dflt : β) (m : List (Char × β)) (c : Char) (v : β)
    (hn : (m.map Prod.fst).Nodup) (hm : (c, v) ∈ m) : mapGet dflt c m = v := by
  induction m with
  | nil => simp at hm
  | cons p t ih =>
    obtain ⟨k', v'⟩ := p
    simp only [List.map_cons, List.nodup_cons] at hn
    rw [mapGet_cons]
    rcases List.mem_cons.mp hm with e | e
    · injection e with e1 e2
      subst e1; subst e2; simp
    · have hk : c ≠ k' := by
        intro e; subst e
        exact hn.1 (List.mem_map.mpr ⟨(c, v), e, rfl⟩)
      simp only [hk, if_false]
      exact ih hn.2 e

/-- The counting loop of `buildFrequencyTable`, started on any table. -/
theorem countLoop_spec (text : List Char) (T : List (Char × Nat))
    (hT : (T.map Prod.fst).Nodup) :
    ((text.foldl (fun table ch => mapUpdate 0 (· + 1) ch table) T).map Prod.fst).Nodup ∧
    (∀ c, c ∈ (text.foldl (fun table ch => mapUpdate 0 (· + 1) ch table) T).map Prod.fst
      ↔ c ∈ T.map Prod.fst ∨ c ∈ text) ∧
    (∀ c, mapGet 0 c (text.foldl (fun table ch => mapUpdate 0 (· + 1) ch table) T)
      = mapGet 0 c T + text.count c) ∧
    ((text.foldl (fun table ch => mapUpdate 0 (· + 1) ch table) T).map Prod.snd).sum
      = (T.map Prod.snd).sum + text.length := by
  induction text generalizing T with
  | nil => simp [hT]
  | cons a t ih =>
    simp only [List.foldl_cons]
    obtain ⟨h1, h2, h3, h4⟩ := ih (mapUpdate 0 (· + 1) a T) (mapUpdate_nodup _ _ _ _ hT)
    refine ⟨h1, ?_, ?_, ?_⟩
    · intro c
      rw [h2 c, mapUpdate_keys]
      by_cases ha : a ∈ T.map Prod.fst
      · simp only [ha, if_true, List.mem_cons]
        constructor
        · rintro (h | h)
          · exact Or.inl h
          · exact Or.inr (Or.inr h)
        · rintro (h | h | h)
          · exact Or.inl h
          · subst h; exact Or.inl ha
          · exact Or.inr h
      · simp only [ha, if_false, List.mem_append, List.mem_singleton, List.mem_cons]
        tauto
    · intro c
      rw [h3 c, mapGet_mapUpdate]
      by_cases hc : c = a
      · subst hc; simp [List.count_cons]; omega
      · have hc' : ¬ a = c := fun e => hc e.symm
        simp [hc, List.count_cons, hc']
    · rw [h4, mapUpdate_succ_sum, List.length_cons]; omega

theorem buildFrequencyTable_nodup (text : List Char) :
    ((buildFrequencyTable text).map Prod.fst).Nodup :=
  (countLoop_spec text [] (by simp)).1

theorem buildFrequencyTable_keys (text : List Char) (c : Char) :
    c ∈ (buildFrequencyTable text).map Prod.fst ↔ c ∈ text := by
  have := (countLoop_spec text [] (by simp)).2.1 c
  simpa [buildFrequencyTable] using this

theorem buildFrequencyTable_sum (text : List Char) :
    ((buildFrequencyTable text).map Prod.snd).sum = text.length := by
  have := (countLoop_spec text [] (by simp)).2.2.2
  simpa [buildFrequencyTable] using this

/-! ## The tree built by `buildHuffmanTree` -/

theorem isNull_eq_false_of_proper (t : HuffmanNode) (h : proper t = true) : t.isNull = false := by
  cases t with
  | null => simp [proper] at h
  | node c f l r => rfl

theorem proper_leaf (c : Char) (f : Nat) : proper (leaf c f) = true := by
  simp [leaf, proper, isNull]

theorem sumsChildren_leaf (c : Char) (f : Nat) : sumsChildren (leaf c f) = true := by
  simp [leaf, sumsChildren, isNull]

theorem leaves_leaf (c : Char) (f : Nat) : leaves (leaf c f) = [(c, f)] := by
  simp [leaf, leaves, isNull]

theorem proper_merged (l r : HuffmanNode) (hl : proper l = true) (hr : proper r = true) :
    proper (merged l r) = true := by
  simp [merged, proper, hl, hr]

theorem sumsChildren_merged (l r : HuffmanNode) (hl : sumsChildren l = true)
    (hr : sumsChildren r = true) : sumsChildren (merged l r) = true := by
  simp [merged, sumsChildren, hl, hr]

theorem leaves_merged (l r : HuffmanNode) (hl : proper l = true) :
    leaves (merged l r) = leaves l ++ leaves r := by
  simp [merged, leaves, isNull_eq_false_of_proper l hl]

theorem top_mem (c : List HuffmanNode) (hc : c ≠ []) : top c ∈ c := by
  cases c with
  | nil => exact absurd rfl hc
  | cons a t => simp [top]

theorem length_push (c : List HuffmanNode) (x : HuffmanNode) :
    (push c x).length = c.length + 1 := by
  simpa using (push_perm c x).length_eq

theorem length_pop (c : List HuffmanNode) (hc : c ≠ []) : (pop c).length + 1 = c.length := by
  simpa using (pop_perm c hc).length_eq

theorem mem_of_mem_pop (c : List HuffmanNode) (hc : c ≠ []) (t : HuffmanNode) (h : t ∈ pop c) :
    t ∈ c :=
  (pop_perm c hc).subset (List.mem_cons_of_mem _ h)

theorem mem_push (c : List HuffmanNode) (x t : HuffmanNode) (h : t ∈ push c x) :
    t = x ∨ t ∈ c := by
  simpa using (push_perm c x).subset h

/-- The filling loop of `buildHuffmanTree`: one leaf per visited entry joins the queue. -/
theorem fill_spec (entries : List (Char × Nat)) (h0 : List HuffmanNode) :
    (entries.foldl (fun h p => push h (leaf p.1 p.2)) h0).Perm
      (h0 ++ entries.map (fun p => leaf p.1 p.2)) := by
  induction entries generalizing h0 with
  | nil => simp
  | cons p t ih =>
    simp only [List.foldl_cons, List.map_cons]
    refine (ih _).trans ?_
    refine (List.Perm.append_right _ (push_perm h0 _)).trans ?_
    simp only [List.cons_append]
    exact List.perm_middle.symm

/-- The merging loop of `buildHuffmanTree`, run on a non-empty queue of well-formed trees
with at least as many iterations allowed as the queue has nodes, ends with one tree; the
tree is well-formed and its leaves are the leaves of the trees of the queue. -/
theorem buildLoop_spec (fuel : Nat) (h : List HuffmanNode) (hf : h.length ≤ fuel) (hne : h ≠ [])
    (hall : ∀ t ∈ h, proper t = true ∧ sumsChildren t = true) :
    ∃ t, buildLoop fuel h = [t] ∧ proper t = true ∧ sumsChildren t = true ∧
      (leaves t).Perm (h.flatMap leaves) := by
  induction fuel generalizing h with
  | zero =>
    have : h = [] := List.length_eq_zero.mp (Nat.le_zero.mp hf)
    exact absurd this hne
  | succ n ih =>
    unfold buildLoop
    split
    · rename_i hlen
      have hp1 := pop_perm h hne
      have hl1 := length_pop h hne
      have hne1 : pop h ≠ [] := by
        intro e; rw [e] at hl1; simp at hl1; omega
      have hp2 := pop_perm (pop h) hne1
      have hl2 := length_pop (pop h) hne1
      have hL := hall _ (top_mem h hne)
      have hR := hall _ (mem_of_mem_pop h hne _ (top_mem _ hne1))
      have hall' : ∀ t ∈ push (pop (pop h)) (merged (top h) (top (pop h))),
          proper t = true ∧ sumsChildren t = true := by
        intro t ht
        rcases mem_push _ _ _ ht with e | e
        · subst e
          exact ⟨proper_merged _ _ hL.1 hR.1, sumsChildren_merged _ _ hL.2 hR.2⟩
        · exact hall t (mem_of_mem_pop h hne _ (mem_of_mem_pop _ hne1 _ e))
      obtain ⟨t, e1, e2, e3, e4⟩ := ih (push (pop (pop h)) (merged (top h) (top (pop h))))
        (by rw [length_push]; omega)
        (by intro e; have := length_push (pop (pop h)) (merged (top h) (top (pop h)))
            rw [e] at this; simp at this)
        hall'
      refine ⟨t, e1, e2, e3, e4.trans ?_⟩
      refine ((push_perm _ _).flatMap_right leaves).trans ?_
      have hperm : (top h :: top (pop h) :: pop (pop h)).Perm h :=
        (List.Perm.cons _ hp2).trans hp1
      refine List.Perm.trans ?_ (hperm.flatMap_right leaves)
      simp only [List.flatMap_cons, leaves_merged _ _ hL.1, List.append_assoc]
      exact List.Perm.refl _
    · rename_i hlen
      cases h with
      | nil => exact absurd rfl hne
      | cons a t =>
        cases t with
        | nil =>
          refine ⟨a, rfl, (hall a (by simp)).1, (hall a (by simp)).2, ?_⟩
          simp
        | cons b u => simp at hlen

/-- The method `buildHuffmanTree` on a non-empty list of entries returns a well-formed
tree whose leaves are the entries. -/
theorem buildHuffmanTree_spec (entries : List (Char × Nat)) (hne : entries ≠ []) :
    proper (buildHuffmanTree entries) = true ∧ sumsChildren (buildHuffmanTree entries) = true ∧
      (leaves (buildHuffmanTree entries)).Perm entries := by
  have hfill := fill_spec entries []
  simp only [List.nil_append] at hfill
  have hne' : entries.foldl (fun h p => push h (leaf p.1 p.2)) [] ≠ [] := by
    intro e
    rw [e] at hfill
    have := hfill.length_eq
    simp only [List.length_nil, List.length_map] at this
    exact hne (List.length_eq_zero.mp this.symm)
  have hall : ∀ t ∈ entries.foldl (fun h p => push h (leaf p.1 p.2)) [],
      proper t = true ∧ sumsChildren t = true := by
    intro t ht
    obtain ⟨p, -, rfl⟩ := List.mem_map.mp (hfill.subset ht)
    exact ⟨proper_leaf _ _, sumsChildren_leaf _ _⟩
  obtain ⟨t, e1, e2, e3, e4⟩ := buildLoop_spec _ _ (le_refl _) hne' hall
  have hroot : buildHuffmanTree entries = t := by
    unfold buildHuffmanTree
    simp only [e1]
    simp [top]
  rw [hroot]
  refine ⟨e2, e3, e4.trans ((hfill.flatMap_right leaves).trans ?_)⟩
  rw [List.flatMap_map]
  have : ∀ l : List (Char × Nat), l.flatMap (fun p => leaves (leaf p.1 p.2)) = l := by
    intro l
    induction l with
    | nil => rfl
    | cons a t ih => simp [List.flatMap_cons, leaves_leaf, ih]
  rw [this]

theorem buildHuffmanTree_nil : buildHuffmanTree [] = null := rfl

/-! ## The code table written by `generateCodes` -/

theorem mapUpdate_absent {β : Type} (dflt : β) (f : β → β) (k : Char) (m : List (Char × β))
    (h : k ∉ m.map Prod.fst) : mapUpdate dflt f k m = m ++ [(k, f dflt)] := by
  induction m with
  | nil => rfl
  | cons p t ih =>
    obtain ⟨k', v⟩ := p
    simp only [List.map_cons, List.mem_cons, not_or] at h
    have h1 : ¬ k' = k := fun e => h.1 e.symm
    simp only [mapUpdate, h1, if_false, ih h.2, List.cons_append]

theorem mapUpdate_id_present {β : Type} (dflt : β) (k : Char) (m : List (Char × β))
    (h : k ∈ m.map Prod.fst) : mapUpdate dflt id k m = m := by
  induction m with
  | nil => simp at h
  | cons p t ih =>
    obtain ⟨k', v⟩ := p
    by_cases e : k' = k
    · simp [mapUpdate, e]
    · have : k ∈ t.map Prod.fst := by
        simp only [List.map_cons, List.mem_cons] at h
        rcases h with h | h
        · exact absurd h.symm e
        · exact h
      simp only [mapUpdate, e, if_false, ih this]

theorem leaves_node_inner (ch : Char) (f : Nat) (l r : HuffmanNode)
    (h : (l.isNull && r.isNull) = false) : leaves (node ch f l r) = leaves l ++ leaves r := by
  simp [leaves, h]

theorem leaves_node_leaf (ch : Char) (f : Nat) (l r : HuffmanNode)
    (h : (l.isNull && r.isNull) = true) : leaves (node ch f l r) = [(ch, f)] := by
  simp [leaves, h]

theorem paths_node_inner (ch : Char) (f : Nat) (l r : HuffmanNode) (code : List Char)
    (h : (l.isNull && r.isNull) = false) :
    paths (node ch f l r) code = paths l (code ++ ['0']) ++ paths r (code ++ ['1']) := by
  simp [paths, h]

theorem paths_node_leaf (ch : Char) (f : Nat) (l r : HuffmanNode) (code : List Char)
    (h : (l.isNull && r.isNull) = true) : paths (node ch f l r) code = [(ch, code)] := by
  simp [paths, h]

theorem proper_node_inner (ch : Char) (f : Nat) (l r : HuffmanNode)
    (h : (l.isNull && r.isNull) = false) (hp : proper (node ch f l r) = true) :
    proper l = true ∧ proper r = true := by
  simpa [proper, h] using hp

theorem paths_keys (t : HuffmanNode) (code : List Char) :
    (paths t code).map Prod.fst = (leaves t).map Prod.fst := by
  induction t generalizing code with
  | null => rfl
  | node ch f l r ihl ihr =>
    simp only [paths, leaves]
    split
    · rfl
    · simp only [List.map_append, ihl, ihr]

/-- The paths below a tree reached by `code` are the paths from the tree, after `code`. -/
theorem paths_append (t : HuffmanNode) (code : List Char) :
    paths t code = (paths t []).map (fun x => (x.1, code ++ x.2)) := by
  induction t generalizing code with
  | null => rfl
  | node ch f l r ihl ihr =>
    simp only [paths]
    split
    · simp
    · rw [ihl (code ++ ['0']), ihr (code ++ ['1']), ihl ([] ++ ['0']), ihr ([] ++ ['1'])]
      simp [List.map_append, List.map_map, Function.comp_def]

/-- On a well-formed tree with distinct leaf characters none of which has an entry yet,
`generateCodes` appends to the table the root-to-leaf paths of the tree, left to right;
the call on a lone leaf with the empty path is excluded. -/
theorem generateCodes_eq_paths (t : HuffmanNode) (code : List Char)
    (codes : List (Char × List Char)) (hp : proper t = true)
    (hcode : code ≠ [] ∨ (leaves t).length ≠ 1)
    (hnd : ((leaves t).map Prod.fst).Nodup)
    (hdis : ∀ c ∈ (leaves t).map Prod.fst, c ∉ codes.map Prod.fst) :
    generateCodes t code codes = codes ++ paths t code := by
  induction t generalizing code codes with
  | null => simp [proper] at hp
  | node ch f l r ihl ihr =>
    cases hleaf : (l.isNull && r.isNull) with
    | true =>
      rw [paths_node_leaf _ _ _ _ _ hleaf]
      simp only [generateCodes, hleaf, if_true]
      have hc : code ≠ [] := by
        rcases hcode with h | h
        · exact h
        · simp [leaves_node_leaf _ _ _ _ hleaf] at h
      have hk : ch ∉ codes.map Prod.fst := by
        apply hdis; simp [leaves_node_leaf _ _ _ _ hleaf]
      rw [mapUpdate_absent _ _ _ _ hk]
      cases code with
      | nil => exact absurd rfl hc
      | cons a u => simp
    | false =>
      rw [paths_node_inner _ _ _ _ _ hleaf]
      simp only [generateCodes, hleaf, Bool.false_eq_true, if_false]
      have hp := proper_node_inner _ _ _ _ hleaf hp
      rw [leaves_node_inner _ _ _ _ hleaf] at hnd hdis
      simp only [List.map_append, List.nodup_append] at hnd
      simp only [List.map_append, List.mem_append] at hdis
      have e1 := ihl (code ++ ['0']) codes hp.1 (Or.inl (by simp)) hnd.1
        (fun c hc => hdis c (Or.inl hc))
      rw [e1]
      have e2 := ihr (code ++ ['1']) (codes ++ paths l (code ++ ['0'])) hp.2 (Or.inl (by simp))
        hnd.2.1 (by
          intro c hc
          simp only [List.map_append, List.mem_append, paths_keys, not_or]
          exact ⟨hdis c (Or.inr hc), fun hl => hnd.2.2 hl hc⟩)
      rw [e2]
      simp [List.append_assoc]

theorem leaves_ne_nil_of_proper (t : HuffmanNode) (hp : proper t = true) : leaves t ≠ [] := by
  induction t with
  | null => simp [proper] at hp
  | node ch f l r ihl _ =>
    cases hleaf : (l.isNull && r.isNull) with
    | true => simp [leaves_node_leaf _ _ _ _ hleaf]
    | false =>
      have hp := proper_node_inner _ _ _ _ hleaf hp
      simp [leaves_node_inner _ _ _ _ hleaf, ihl hp.1]

/-- A well-formed tree with exactly one leaf is that leaf. -/
theorem eq_leaf_of_leaves_singleton (t : HuffmanNode) (hp : proper t = true) (c : Char) (n : Nat)
    (h : leaves t = [(c, n)]) : t = leaf c n := by
  cases t with
  | null => simp [proper] at hp
  | node ch f l r =>
    cases hleaf : (l.isNull && r.isNull) with
    | true =>
      rw [leaves_node_leaf _ _ _ _ hleaf] at h
      simp only [List.cons.injEq, Prod.mk.injEq, and_true] at h
      simp only [Bool.and_eq_true] at hleaf
      cases l with
      | null =>
        cases r with
        | null => simp [leaf, h.1, h.2]
        | node _ _ _ _ => simp [isNull] at hleaf
      | node _ _ _ _ => simp [isNull] at hleaf
    | false =>
      have hp := proper_node_inner _ _ _ _ hleaf hp
      rw [leaves_node_inner _ _ _ _ hleaf] at h
      have h1 := leaves_ne_nil_of_proper l hp.1
      have h2 := leaves_ne_nil_of_proper r hp.2
      have h3 := congrArg List.length h
      simp only [List.length_append, List.length_singleton] at h3
      have h4 := List.length_pos.mpr h1
      have h5 := List.length_pos.mpr h2
      omega

theorem generateCodes_leaf (c : Char) (n : Nat) : generateCodes (leaf c n) [] [] = [(c, ['0'])] := by
  simp [leaf, generateCodes, isNull, mapUpdate]

/-! ## The encoding loop of `compress` -/

theorem mapGet_mapUpdate_id {β : Type} (dflt : β) (k c : Char) (m : List (Char × β)) :
    mapGet dflt c (mapUpdate dflt id k m) = mapGet dflt c m := by
  rw [mapGet_mapUpdate]
  split
  · rename_i h; subst h; rfl
  · rfl

theorem encodeLoop_fst (text : List Char) (acc : List Char) (codes : List (Char × List Char)) :
    (text.foldl (fun acc ch => (acc.1 ++ mapGet [] ch acc.2, mapUpdate [] id ch acc.2))
      (acc, codes)).1 = acc ++ text.flatMap (fun ch => mapGet [] ch codes) ∧
    ∀ c, mapGet [] c (text.foldl
      (fun acc ch => (acc.1 ++ mapGet [] ch acc.2, mapUpdate [] id ch acc.2)) (acc, codes)).2
      = mapGet [] c codes := by
  induction text generalizing acc codes with
  | nil => simp
  | cons a t ih =>
    simp only [List.foldl_cons, List.flatMap_cons]
    obtain ⟨h1, h2⟩ := ih (acc ++ mapGet [] a codes) (mapUpdate [] id a codes)
    refine ⟨?_, ?_⟩
    · rw [h1, List.append_assoc]
      congr 2
      apply List.flatMap_congr
      intro c _
      exact mapGet_mapUpdate_id _ _ _ _
    · intro c
      rw [h2 c, mapGet_mapUpdate_id]

/-- The data returned by the encoding loop: the codes of the characters, concatenated in
text order, a character without an entry contributing nothing. -/
theorem encodeText_fst (codes : List (Char × List Char)) (text : List Char) :
    (encodeText codes text).1 = text.flatMap (fun ch => mapGet [] ch codes) := by
  have := (encodeLoop_fst text [] codes).1
  simpa [encodeText] using this

theorem encodeLoop_snd (text : List Char) (acc : List Char) (codes : List (Char × List Char))
    (h : ∀ c ∈ text, c ∈ codes.map Prod.fst) :
    (text.foldl (fun acc ch => (acc.1 ++ mapGet [] ch acc.2, mapUpdate [] id ch acc.2))
      (acc, codes)).2 = codes := by
  induction text generalizing acc with
  | nil => rfl
  | cons a t ih =>
    simp only [List.foldl_cons]
    rw [mapUpdate_id_present [] a codes (h a (by simp))]
    exact ih _ (fun c hc => h c (List.mem_cons_of_mem _ hc))

/-- The encoding loop leaves the table as it is when every character has an entry. -/
theorem encodeText_snd (codes : List (Char × List Char)) (text : List Char)
    (h : ∀ c ∈ text, c ∈ codes.map Prod.fst) : (encodeText codes text).2 = codes :=
  encodeLoop_snd text [] codes h

/-! ## The walk of `decompress` -/

theorem decodeLoop_append (root : HuffmanNode) (a b : List Char) (st : List Char × HuffmanNode) :
    decodeLoop root (a ++ b) st =
      match decodeLoop root a st with
      | .error e => .error e
      | .ok st' => decodeLoop root b st' := by
  induction a generalizing st with
  | nil => rfl
  | cons x t ih =>
    simp only [List.cons_append, decodeLoop]
    cases decodeStep root st x with
    | error e => rfl
    | ok st' => exact ih st'

/-- One step of the walk from a node into the child that the bit selects, when that child
is a node: a leaf is emitted and the walk returns to the root, another node becomes the
current node. -/
theorem decodeStep_node (root : HuffmanNode) (acc : List Char) (ch : Char) (f : Nat)
    (l r : HuffmanNode) (bit : Char) (ch' : Char) (f' : Nat) (l' r' : HuffmanNode)
    (h : (if bit = '0' then l else r) = node ch' f' l' r') :
    decodeStep root (acc, node ch f l r) bit =
      if l'.isNull && r'.isNull then .ok (acc ++ [ch'], root)
      else .ok (acc, node ch' f' l' r') := by
  simp only [decodeStep, h]

theorem mem_paths_inner (ch : Char) (f : Nat) (l r : HuffmanNode)
    (h : (l.isNull && r.isNull) = false) (c : Char) (q : List Char)
    (hm : (c, q) ∈ paths (node ch f l r) []) :
    (∃ q', q = '0' :: q' ∧ (c, q') ∈ paths l []) ∨ (∃ q', q = '1' :: q' ∧ (c, q') ∈ paths r []) := by
  rw [paths_node_inner _ _ _ _ _ h, List.mem_append] at hm
  rcases hm with hm | hm
  · left
    rw [paths_append] at hm
    obtain ⟨x, hx, e⟩ := List.mem_map.mp hm
    simp only [List.nil_append, List.singleton_append, Prod.mk.injEq] at e
    exact ⟨x.2, e.2.symm, by rw [← e.1]; exact hx⟩
  · right
    rw [paths_append] at hm
    obtain ⟨x, hx, e⟩ := List.mem_map.mp hm
    simp only [List.nil_append, List.singleton_append, Prod.mk.injEq] at e
    exact ⟨x.2, e.2.symm, by rw [← e.1]; exact hx⟩

/-- From a node with children, the walk along the path of a leaf emits the character of
that leaf and is back at the root. -/
theorem decodeLoop_path (root t : HuffmanNode) (hp : proper t = true) (hi : t.isLeaf = false)
    (c : Char) (q rest acc : List Char) (hm : (c, q) ∈ paths t []) :
    decodeLoop root (q ++ rest) (acc, t) = decodeLoop root rest (acc ++ [c], root) := by
  induction t generalizing q with
  | null => simp [proper] at hp
  | node ch f l r ihl ihr =>
    have hleaf : (l.isNull && r.isNull) = false := hi
    have hpp := proper_node_inner _ _ _ _ hleaf hp
    rcases mem_paths_inner _ _ _ _ hleaf c q hm with ⟨q', rfl, hq⟩ | ⟨q', rfl, hq⟩
    · cases l with
      | null => simp [proper] at hpp
      | node ch' f' l' r' =>
        simp only [List.cons_append, decodeLoop]
        rw [decodeStep_node root acc ch f _ r '0' ch' f' l' r' (by simp)]
        cases hl : (l'.isNull && r'.isNull) with
        | true =>
          rw [paths_node_leaf _ _ _ _ _ hl] at hq
          simp only [List.mem_singleton, Prod.mk.injEq] at hq
          simp [hq.1, hq.2]
        | false =>
          simp only [Bool.false_eq_true, if_false]
          exact ihl hpp.1 hl q' hq
    · cases r with
      | null => simp [proper] at hpp
      | node ch' f' l' r' =>
        simp only [List.cons_append, decodeLoop]
        rw [decodeStep_node root acc ch f l _ '1' ch' f' l' r' (by simp)]
        cases hl : (l'.isNull && r'.isNull) with
        | true =>
          rw [paths_node_leaf _ _ _ _ _ hl] at hq
          simp only [List.mem_singleton, Prod.mk.injEq] at hq
          simp [hq.1, hq.2]
        | false =>
          simp only [Bool.false_eq_true, if_false]
          exact ihr hpp.2 hl q' hq

/-- From a node with children, the walk along a strict initial part of the path of a leaf
emits nothing, raises no fault and stops at a node with children, which lies strictly
below the starting node unless no bit was read. -/
theorem decodeLoop_partial (root t : HuffmanNode) (hp : proper t = true) (hi : t.isLeaf = false)
    (c : Char) (q p acc : List Char) (hm : (c, q) ∈ paths t []) (hpq : p <+: q) (hne : p ≠ q) :
    ∃ sub, decodeLoop root p (acc, t) = .ok (acc, sub) ∧ sizeOf sub ≤ sizeOf t ∧
      (p ≠ [] → sizeOf sub < sizeOf t) ∧ sub.isLeaf = false ∧ proper sub = true := by
  induction t generalizing q p with
  | null => simp [proper] at hp
  | node ch f l r ihl ihr =>
    have hleaf : (l.isNull && r.isNull) = false := hi
    have hpp := proper_node_inner _ _ _ _ hleaf hp
    cases p with
    | nil => exact ⟨_, rfl, le_refl _, fun h => absurd rfl h, hi, hp⟩
    | cons b p' =>
      rcases mem_paths_inner _ _ _ _ hleaf c q hm with ⟨q', rfl, hq⟩ | ⟨q', rfl, hq⟩
      · have hb : b = '0' ∧ p' <+: q' := by
          simpa [List.cons_prefix_cons] using hpq
        obtain ⟨rfl, hpq'⟩ := hb
        have hne' : p' ≠ q' := fun e => hne (by rw [e])
        cases l with
        | null => simp [proper] at hpp
        | node ch' f' l' r' =>
          simp only [decodeLoop]
          rw [decodeStep_node root acc ch f _ r '0' ch' f' l' r' (by simp)]
          cases hl : (l'.isNull && r'.isNull) with
          | true =>
            rw [paths_node_leaf _ _ _ _ _ hl] at hq
            simp only [List.mem_singleton, Prod.mk.injEq] at hq
            rw [hq.2] at hpq'
            exact absurd (List.prefix_nil.mp hpq' |>.trans hq.2.symm) hne'
          | false =>
            simp only [Bool.false_eq_true, if_false]
            obtain ⟨sub, e1, e2, -, e3, e4⟩ := ihl hpp.1 hl q' p' hq hpq' hne'
            have hs : sizeOf sub < sizeOf (node ch f (node ch' f' l' r') r) := by
              simp only [HuffmanNode.node.sizeOf_spec] at e2 ⊢
              omega
            exact ⟨sub, e1, le_of_lt hs, fun _ => hs, e3, e4⟩
      · have hb : b = '1' ∧ p' <+: q' := by
          simpa [List.cons_prefix_cons] using hpq
        obtain ⟨rfl, hpq'⟩ := hb
        have hne' : p' ≠ q' := fun e => hne (by rw [e])
        cases r with
        | null => simp [proper] at hpp
        | node ch' f' l' r' =>
          simp only [decodeLoop]
          rw [decodeStep_node root acc ch f l _ '1' ch' f' l' r' (by simp)]
          cases hl : (l'.isNull && r'.isNull) with
          | true =>
            rw [paths_node_leaf _ _ _ _ _ hl] at hq
            simp only [List.mem_singleton, Prod.mk.injEq] at hq
            rw [hq.2] at hpq'
            exact absurd (List.prefix_nil.mp hpq' |>.trans hq.2.symm) hne'
          | false =>
            simp only [Bool.false_eq_true, if_false]
            obtain ⟨sub, e1, e2, -, e3, e4⟩ := ihr hpp.2 hl q' p' hq hpq' hne'
            have hs : sizeOf sub < sizeOf (node ch f l (node ch' f' l' r')) := by
              simp only [HuffmanNode.node.sizeOf_spec] at e2 ⊢
              omega
            exact ⟨sub, e1, le_of_lt hs, fun _ => hs, e3, e4⟩

/-- From the root of a tree with children, the walk along the concatenated paths of a
sequence of leaves emits the characters of those leaves in order and ends at the root. -/
theorem decodeLoop_message (root : HuffmanNode) (hp : proper root = true)
    (hi : root.isLeaf = false) (code : Char → List Char) (msg : List Char)
    (hcode : ∀ c ∈ msg, (c, code c) ∈ paths root []) (acc rest : List Char) :
    decodeLoop root (msg.flatMap code ++ rest) (acc, root)
      = decodeLoop root rest (acc ++ msg, root) := by
  induction msg generalizing acc with
  | nil => simp
  | cons a t ih =>
    simp only [List.flatMap_cons, List.append_assoc]
    rw [decodeLoop_path root root hp hi a (code a) _ acc (hcode a (by simp))]
    rw [ih (fun c hc => hcode c (List.mem_cons_of_mem _ hc))]
    simp

/-- From a node with children of a well-formed tree whose root has children, the walk
over any string raises no fault and stops at a node with children. -/
theorem decodeLoop_total (root : HuffmanNode) (hp : proper root = true)
    (hi : root.isLeaf = false) (bits : List Char) (acc : List Char) (cur : HuffmanNode)
    (hcp : proper cur = true) (hci : cur.isLeaf = false) :
    ∃ out sub, decodeLoop root bits (acc, cur) = .ok (out, sub) ∧ proper sub = true ∧
      sub.isLeaf = false := by
  induction bits generalizing acc cur with
  | nil => exact ⟨acc, cur, rfl, hcp, hci⟩
  | cons bit rest ih =>
    cases cur with
    | null => simp [proper] at hcp
    | node ch f l r =>
      have hleaf : (l.isNull && r.isNull) = false := hci
      have hpp := proper_node_inner _ _ _ _ hleaf hcp
      have hchild : proper (if bit = '0' then l else r) = true := by
        split
        · exact hpp.1
        · exact hpp.2
      generalize hk : (if bit = '0' then l else r) = child at hchild
      cases child with
      | null => simp [proper] at hchild
      | node ch' f' l' r' =>
        simp only [decodeLoop]
        rw [decodeStep_node root acc ch f l r bit ch' f' l' r' hk]
        cases hl : (l'.isNull && r'.isNull) with
        | true =>
          simp only [if_true]
          exact ih (acc ++ [ch']) root hp hi
        | false =>
          simp only [Bool.false_eq_true, if_false]
          exact ih acc _ hchild hl

/-! ## What `compress` leaves in the compressor -/

/-- The method `compress` on a non-empty text, phase by phase. -/
theorem compress_eq (E : Enumeration) (s : HuffmanCompressor) (text : List Char)
    (h : text ≠ []) :
    compress E s text =
      ((encodeText (generateCodes (buildHuffmanTree (E.order (buildFrequencyTable text))) [] [])
          text).1,
        ⟨buildFrequencyTable text,
          (encodeText (generateCodes (buildHuffmanTree (E.order (buildFrequencyTable text))) [] [])
            text).2,
          buildHuffmanTree (E.order (buildFrequencyTable text))⟩) := by
  unfold compress
  have : text.isEmpty = false := by
    cases text with
    | nil => exact absurd rfl h
    | cons a t => rfl
  simp only [this, Bool.false_eq_true, if_false]

theorem buildFrequencyTable_ne_nil (text : List Char) (h : text ≠ []) :
    buildFrequencyTable text ≠ [] := by
  obtain ⟨a, t, rfl⟩ := List.exists_cons_of_ne_nil h
  intro e
  have := (buildFrequencyTable_keys (a :: t) a).mpr (by simp)
  rw [e] at this
  simp at this

theorem order_ne_nil (E : Enumeration) (text : List Char) (h : text ≠ []) :
    E.order (buildFrequencyTable text) ≠ [] := by
  intro e
  have := (E.perm (buildFrequencyTable text)).length_eq
  rw [e] at this
  exact buildFrequencyTable_ne_nil text h (List.length_eq_zero.mp this.symm)

/-- The tree that `compress` builds from a non-empty text is well-formed and its leaves
are the entries of the frequency table. -/
theorem tree_of_text (E : Enumeration) (text : List Char) (h : text ≠ []) :
    proper (buildHuffmanTree (E.order (buildFrequencyTable text))) = true ∧
    sumsChildren (buildHuffmanTree (E.order (buildFrequencyTable text))) = true ∧
    (leaves (buildHuffmanTree (E.order (buildFrequencyTable text)))).Perm
      (buildFrequencyTable text) := by
  obtain ⟨h1, h2, h3⟩ := buildHuffmanTree_spec _ (order_ne_nil E text h)
  exact ⟨h1, h2, h3.trans (E.perm _)⟩

theorem tree_keys_nodup (E : Enumeration) (text : List Char) (h : text ≠ []) :
    ((leaves (buildHuffmanTree (E.order (buildFrequencyTable text)))).map Prod.fst).Nodup :=
  (((tree_of_text E text h).2.2.map Prod.fst).nodup_iff).mpr (buildFrequencyTable_nodup text)

theorem tree_keys_mem (E : Enumeration) (text : List Char) (h : text ≠ []) (c : Char) :
    c ∈ (leaves (buildHuffmanTree (E.order (buildFrequencyTable text)))).map Prod.fst
      ↔ c ∈ text := by
  rw [((tree_of_text E text h).2.2.map Prod.fst).mem_iff]
  exact buildFrequencyTable_keys text c

theorem isLeaf_iff_leaves (t : HuffmanNode) (hp : proper t = true) :
    t.isLeaf = true ↔ (leaves t).length = 1 := by
  cases t with
  | null => simp [proper] at hp
  | node ch f l r =>
    cases hleaf : (l.isNull && r.isNull) with
    | true => simp [isLeaf, hleaf, leaves_node_leaf _ _ _ _ hleaf]
    | false =>
      have hpp := proper_node_inner _ _ _ _ hleaf hp
      have h1 := List.length_pos.mpr (leaves_ne_nil_of_proper l hpp.1)
      have h2 := List.length_pos.mpr (leaves_ne_nil_of_proper r hpp.2)
      simp only [isLeaf, hleaf, leaves_node_inner _ _ _ _ hleaf, List.length_append]
      constructor
      · intro h; exact absurd h (by simp)
      · intro h; omega

/-- With two distinct characters in the text, the root of the built tree has children. -/
theorem tree_inner (E : Enumeration) (text : List Char) (a b : Char) (ha : a ∈ text)
    (hb : b ∈ text) (hab : a ≠ b) :
    (buildHuffmanTree (E.order (buildFrequencyTable text))).isLeaf = false := by
  have hne : text ≠ [] := List.ne_nil_of_mem ha
  have hp := (tree_of_text E text hne).1
  have ka := (tree_keys_mem E text hne a).mpr ha
  have kb := (tree_keys_mem E text hne b).mpr hb
  cases hl : (buildHuffmanTree (E.order (buildFrequencyTable text))).isLeaf with
  | false => rfl
  | true =>
    have h1 := (isLeaf_iff_leaves _ hp).mp hl
    obtain ⟨x, hx⟩ := List.length_eq_one.mp h1
    rw [hx] at ka kb
    simp only [List.map_cons, List.map_nil, List.mem_singleton] at ka kb
    exact absurd (ka.trans kb.symm) hab

/-- With two distinct characters in the text, the table written by `generateCodes` lists
the root-to-leaf paths of the built tree. -/
theorem codes_eq_paths (E : Enumeration) (text : List Char) (a b : Char) (ha : a ∈ text)
    (hb : b ∈ text) (hab : a ≠ b) :
    generateCodes (buildHuffmanTree (E.order (buildFrequencyTable text))) [] []
      = paths (buildHuffmanTree (E.order (buildFrequencyTable text))) [] := by
  have hne : text ≠ [] := List.ne_nil_of_mem ha
  have hp := (tree_of_text E text hne).1
  have hi := tree_inner E text a b ha hb hab
  have := generateCodes_eq_paths _ [] [] hp
    (Or.inr (fun h => by rw [(isLeaf_iff_leaves _ hp).mpr h] at hi; exact absurd hi (by simp)))
    (tree_keys_nodup E text hne) (by simp)
  simpa using this

/-- With one distinct character in the text, the built tree is a lone leaf that holds the
character and the length of the text. -/
theorem tree_of_single (E : Enumeration) (text : List Char) (c : Char) (hne : text ≠ [])
    (h : ∀ x ∈ text, x = c) :
    buildHuffmanTree (E.order (buildFrequencyTable text)) = leaf c text.length := by
  have hc : c ∈ text := by
    obtain ⟨a, t, rfl⟩ := List.exists_cons_of_ne_nil hne
    have := h a (by simp)
    subst this; simp
  have hkeys : (buildFrequencyTable text).map Prod.fst = [c] := by
    have hnd := buildFrequencyTable_nodup text
    have hmem : ∀ x, x ∈ (buildFrequencyTable text).map Prod.fst ↔ x = c := by
      intro x
      rw [buildFrequencyTable_keys]
      exact ⟨h x, fun e => e ▸ hc⟩
    generalize (buildFrequencyTable text).map Prod.fst = ks at hnd hmem
    cases ks with
    | nil => exact absurd ((hmem c).mpr rfl) (by simp)
    | cons k ks =>
      have hk : k = c := (hmem k).mp (by simp)
      subst hk
      cases ks with
      | nil => rfl
      | cons k2 ks =>
        have hk2 : k2 = k := (hmem k2).mp (by simp)
        subst hk2
        simp at hnd
  have htab : buildFrequencyTable text = [(c, text.length)] := by
    have hsum := buildFrequencyTable_sum text
    generalize buildFrequencyTable text = tb at hkeys hsum
    cases tb with
    | nil => simp at hkeys
    | cons p tb =>
      cases tb with
      | nil =>
        obtain ⟨k, v⟩ := p
        simp only [List.map_cons, List.map_nil, List.cons.injEq, and_true] at hkeys
        simp only [List.map_cons, List.map_nil, List.sum_cons, List.sum_nil, Nat.add_zero] at hsum
        rw [hkeys, hsum]
      | cons p2 tb => simp at hkeys
  have hp := (tree_of_text E text hne)
  have hl : (leaves (buildHuffmanTree (E.order (buildFrequencyTable text)))).Perm
      [(c, text.length)] := htab ▸ hp.2.2
  exact eq_leaf_of_leaves_singleton _ hp.1 c text.length (List.perm_singleton.mp hl)

/-! ## Codes and paths -/

/-- Every path of a tree reached by `code` starts with `code`. -/
theorem paths_extend (t : HuffmanNode) (code : List Char) (x : Char × List Char)
    (h : x ∈ paths t code) : ∃ q, x.2 = code ++ q := by
  rw [paths_append] at h
  obtain ⟨y, -, rfl⟩ := List.mem_map.mp h
  exact ⟨y.2, rfl⟩

/-- No root-to-leaf path of a tree starts another one. -/
theorem paths_pairwise (t : HuffmanNode) (code : List Char) :
    (paths t code).Pairwise (fun x y => ¬ x.2 <+: y.2 ∧ ¬ y.2 <+: x.2) := by
  induction t generalizing code with
  | null => simp [paths]
  | node ch f l r ihl ihr =>
    cases hleaf : (l.isNull && r.isNull) with
    | true => simp [paths_node_leaf _ _ _ _ _ hleaf]
    | false =>
      rw [paths_node_inner _ _ _ _ _ hleaf, List.pairwise_append]
      refine ⟨ihl _, ihr _, ?_⟩
      intro x hx y hy
      obtain ⟨qx, ex⟩ := paths_extend _ _ x hx
      obtain ⟨qy, ey⟩ := paths_extend _ _ y hy
      rw [ex, ey]
      simp only [List.append_assoc, List.singleton_append]
      constructor
      · intro h
        have := (List.prefix_append_right_inj code).mp h
        simp [List.cons_prefix_cons] at this
      · intro h
        have := (List.prefix_append_right_inj code).mp h
        simp [List.cons_prefix_cons] at this

/-- A path is shorter than the number of leaves of its tree. -/
theorem paths_length (t : HuffmanNode) (hp : proper t = true) (code : List Char)
    (x : Char × List Char) (h : x ∈ paths t code) :
    x.2.length + 1 ≤ code.length + (leaves t).length := by
  induction t generalizing code with
  | null => simp [proper] at hp
  | node ch f l r ihl ihr =>
    cases hleaf : (l.isNull && r.isNull) with
    | true =>
      rw [paths_node_leaf _ _ _ _ _ hleaf] at h
      rw [leaves_node_leaf _ _ _ _ hleaf]
      simp only [List.mem_singleton] at h
      subst h; simp
    | false =>
      have hpp := proper_node_inner _ _ _ _ hleaf hp
      have h1 := List.length_pos.mpr (leaves_ne_nil_of_proper l hpp.1)
      have h2 := List.length_pos.mpr (leaves_ne_nil_of_proper r hpp.2)
      rw [paths_node_inner _ _ _ _ _ hleaf, List.mem_append] at h
      rw [leaves_node_inner _ _ _ _ hleaf, List.length_append]
      rcases h with h | h
      · have := ihl hpp.1 _ h
        simp only [List.length_append, List.length_singleton] at this
        omega
      · have := ihr hpp.2 _ h
        simp only [List.length_append, List.length_singleton] at this
        omega

/-- A path from a node with children is not empty. -/
theorem paths_ne_nil (t : HuffmanNode) (hi : t.isLeaf = false) (c : Char) (q : List Char)
    (h : (c, q) ∈ paths t []) : q ≠ [] := by
  cases t with
  | null => simp [paths] at h
  | node ch f l r =>
    rcases mem_paths_inner _ _ _ _ hi c q h with ⟨q', rfl, -⟩ | ⟨q', rfl, -⟩ <;> simp

/-- Looking a character of the text up in the list of root-to-leaf paths of the built
tree gives the path of the leaf of that character. -/
theorem code_mem_paths (E : Enumeration) (text : List Char) (c : Char) (hc : c ∈ text) :
    (c, mapGet [] c (paths (buildHuffmanTree (E.order (buildFrequencyTable text))) []))
      ∈ paths (buildHuffmanTree (E.order (buildFrequencyTable text))) [] := by
  have hne : text ≠ [] := List.ne_nil_of_mem hc
  have hk := (tree_keys_mem E text hne c).mpr hc
  rw [← paths_keys _ []] at hk
  obtain ⟨x, hx, e⟩ := List.mem_map.mp hk
  obtain ⟨k, q⟩ := x
  simp only at e
  subst e
  have hnd := tree_keys_nodup E text hne
  rw [← paths_keys _ []] at hnd
  rw [mapGet_of_mem [] _ k q hnd hx]
  exact hx

/-- With two distinct characters in the text, `compress` returns the concatenated paths
of the characters of the text and keeps the table of paths and the tree. -/
theorem compress_two (E : Enumeration) (s : HuffmanCompressor) (text : List Char) (a b : Char)
    (ha : a ∈ text) (hb : b ∈ text) (hab : a ≠ b) :
    compress E s text =
      (text.flatMap (fun ch =>
          mapGet [] ch (paths (buildHuffmanTree (E.order (buildFrequencyTable text))) [])),
        ⟨buildFrequencyTable text,
          paths (buildHuffmanTree (E.order (buildFrequencyTable text))) [],
          buildHuffmanTree (E.order (buildFrequencyTable text))⟩) := by
  have hne : text ≠ [] := List.ne_nil_of_mem ha
  rw [compress_eq E s text hne, codes_eq_paths E text a b ha hb hab, encodeText_fst,
    encodeText_snd]
  intro c hc
  rw [paths_keys]
  exact (tree_keys_mem E text hne c).mpr hc

/-- With two distinct characters in the text, `decompress` gives the text back from what
`compress` returned, on the compressor that `compress` left. -/
theorem decompress_compress (E : Enumeration) (s : HuffmanCompressor) (text : List Char)
    (a b : Char) (ha : a ∈ text) (hb : b ∈ text) (hab : a ≠ b) :
    decompress (compress E s text).2 (compress E s text).1 = .ok text := by
  have hne : text ≠ [] := List.ne_nil_of_mem ha
  have hp := (tree_of_text E text hne).1
  have hi := tree_inner E text a b ha hb hab
  rw [compress_two E s text a b ha hb hab]
  simp only
  have hdata : text.flatMap (fun ch =>
      mapGet [] ch (paths (buildHuffmanTree (E.order (buildFrequencyTable text))) [])) ≠ [] := by
    obtain ⟨x, t, rfl⟩ := List.exists_cons_of_ne_nil hne
    have := paths_ne_nil _ hi x _ (code_mem_paths E (x :: t) x (by simp))
    simp only [List.flatMap_cons]
    intro e
    exact this (List.append_eq_nil.mp e).1
  have hloop := decodeLoop_message _ hp hi
    (fun ch => mapGet [] ch (paths (buildHuffmanTree (E.order (buildFrequencyTable text))) []))
    text (fun c hc => code_mem_paths E text c hc) [] []
  simp only [List.append_nil, List.nil_append, decodeLoop] at hloop
  unfold decompress
  have e1 : (text.flatMap (fun ch =>
      mapGet [] ch (paths (buildHuffmanTree (E.order
        (buildFrequencyTable text))) []))).isEmpty = false := by
    cases h : text.flatMap (fun ch =>
      mapGet [] ch (paths (buildHuffmanTree (E.order (buildFrequencyTable text))) [])) with
    | nil => exact absurd h hdata
    | cons _ _ => rfl
  simp only [e1, isNull_eq_false_of_proper _ hp, Bool.or_self, Bool.false_eq_true, if_false,
    hloop]

theorem flatMap_length_le (code : Char → List Char) (k : Nat) (text : List Char)
    (h : ∀ c ∈ text, (code c).length ≤ k) : (text.flatMap code).length ≤ text.length * k := by
  induction text with
  | nil => simp
  | cons x t ih =>
    simp only [List.flatMap_cons, List.length_append, List.length_cons]
    have h1 := h x (by simp)
    have h2 := ih (fun c hc => h c (List.mem_cons_of_mem _ hc))
    rw [Nat.add_mul]
    omega

/-- With two distinct characters in the text, no code is longer than the number of
distinct characters less one, so the returned string has at most that many bits per
character of the text. -/
theorem compress_length_le (E : Enumeration) (s : HuffmanCompressor) (text : List Char)
    (a b : Char) (ha : a ∈ text) (hb : b ∈ text) (hab : a ≠ b) :
    (compress E s text).1.length ≤ text.length * ((buildFrequencyTable text).length - 1) := by
  have hne : text ≠ [] := List.ne_nil_of_mem ha
  have hp := (tree_of_text E text hne)
  rw [compress_two E s text a b ha hb hab]
  simp only
  have hbound : ∀ c ∈ text, (mapGet [] c
      (paths (buildHuffmanTree (E.order (buildFrequencyTable text))) [])).length
      ≤ (buildFrequencyTable text).length - 1 := by
    intro c hc
    have := paths_length _ hp.1 [] _ (code_mem_paths E text c hc)
    rw [hp.2.2.length_eq] at this
    simp only [List.length_nil, Nat.zero_add] at this
    omega
  exact flatMap_length_le _ _ text hbound

/-- Every character of a non-empty text has an entry in the table that `generateCodes`
writes for the built tree. -/
theorem codes_keys_mem (E : Enumeration) (text : List Char) (c : Char) (hc : c ∈ text) :
    c ∈ (generateCodes (buildHuffmanTree (E.order (buildFrequencyTable text))) [] []).map
      Prod.fst := by
  have hne : text ≠ [] := List.ne_nil_of_mem hc
  have hp := (tree_of_text E text hne).1
  have hk := (tree_keys_mem E text hne c).mpr hc
  cases hl : (buildHuffmanTree (E.order (buildFrequencyTable text))).isLeaf with
  | true =>
    obtain ⟨x, hx⟩ := List.length_eq_one.mp ((isLeaf_iff_leaves _ hp).mp hl)
    have e := eq_leaf_of_leaves_singleton _ hp x.1 x.2 hx
    rw [hx] at hk
    rw [e, generateCodes_leaf]
    simpa using hk
  | false =>
    have hcodes := generateCodes_eq_paths _ [] [] hp
      (Or.inr (fun h => by
        rw [(isLeaf_iff_leaves _ hp).mpr h] at hl; exact absurd hl (by simp)))
      (tree_keys_nodup E text hne) (by simp)
    rw [List.nil_append] at hcodes
    rw [hcodes, paths_keys]
    exact hk

/-! ## A text of one repeated character -/

theorem replicate_ne_nil (c : Char) (n : Nat) (hn : 1 ≤ n) : List.replicate n c ≠ [] := by
  cases n with
  | zero => omega
  | succ m => simp [List.replicate_succ]

theorem flatMap_replicate_single (c : Char) (n : Nat) :
    (List.replicate n c).flatMap (fun ch => mapGet [] ch [(c, ['0'])]) = List.replicate n '0' := by
  induction n with
  | zero => rfl
  | succ m ih =>
    rw [List.replicate_succ, List.flatMap_cons, ih, mapGet_cons, if_pos rfl]
    rfl

/-- The method `compress` on a text of `n ≥ 1` copies of `c`: the returned string, the
table of codes and the tree. -/
theorem compress_replicate (E : Enumeration) (s : HuffmanCompressor) (c : Char) (n : Nat)
    (hn : 1 ≤ n) :
    compress E s (List.replicate n c) =
      (List.replicate n '0', ⟨buildFrequencyTable (List.replicate n c), [(c, ['0'])], leaf c n⟩) := by
  have hne := replicate_ne_nil c n hn
  have hroot := tree_of_single E (List.replicate n c) c hne
    (fun x hx => (List.mem_replicate.mp hx).2)
  rw [List.length_replicate] at hroot
  rw [compress_eq E s _ hne, hroot, generateCodes_leaf, encodeText_fst, flatMap_replicate_single,
    encodeText_snd]
  intro x hx
  simp [(List.mem_replicate.mp hx).2]

/-- The walk of `decompress` from a lone leaf follows the null child at the first bit. -/
theorem decodeLoop_leaf (c : Char) (n : Nat) (bit : Char) (rest acc : List Char) :
    decodeLoop (leaf c n) (bit :: rest) (acc, leaf c n) = .error .nullDereference := by
  have h : decodeStep (leaf c n) (acc, leaf c n) bit = .error .nullDereference := by
    simp only [decodeStep, leaf, ite_self]
  simp only [decodeLoop, h]

/-! ## The encoding loop and the encoder of the specification -/

theorem flatMap_eq_nil_of_ne_nil (code : Char → List Char) (msg : List Char)
    (h : ∀ x ∈ msg, code x ≠ []) (e : msg.flatMap code = []) : msg = [] := by
  cases msg with
  | nil => rfl
  | cons x t =>
    simp only [List.flatMap_cons, List.append_eq_nil] at e
    exact absurd e.1 (h x (by simp))

/-! ## The shape of the built tree -/

/-- A well-formed tree has one leaf more than it has nodes with children. -/
theorem innerCount_add_one (t : HuffmanNode) (hp : proper t = true) :
    innerCount t + 1 = (leaves t).length := by
  induction t with
  | null => simp [proper] at hp
  | node ch f l r ihl ihr =>
    cases hleaf : (l.isNull && r.isNull) with
    | true => simp [innerCount, hleaf, leaves_node_leaf _ _ _ _ hleaf]
    | false =>
      have hpp := proper_node_inner _ _ _ _ hleaf hp
      have h1 := ihl hpp.1
      have h2 := ihr hpp.2
      simp only [innerCount, hleaf, Bool.false_eq_true, if_false,
        leaves_node_inner _ _ _ _ hleaf, List.length_append]
      omega

/-- A node with a child of a well-formed tree has both children. -/
theorem children_of_inner (t : HuffmanNode) (hp : proper t = true) (hi : t.isLeaf = false) :
    ∃ ch f l r, t = node ch f l r ∧ l.isNull = false ∧ r.isNull = false ∧
      proper l = true ∧ proper r = true := by
  cases t with
  | null => simp [proper] at hp
  | node ch f l r =>
    have hpp := proper_node_inner _ _ _ _ hi hp
    exact ⟨ch, f, l, r, rfl, isNull_eq_false_of_proper l hpp.1,
      isNull_eq_false_of_proper r hpp.2, hpp.1, hpp.2⟩

theorem buildHuffmanTree_single (c : Char) (f : Nat) : buildHuffmanTree [(c, f)] = leaf c f := by
  have h := buildHuffmanTree_spec [(c, f)] (by simp)
  exact eq_leaf_of_leaves_singleton _ h.1 c f (List.perm_singleton.mp h.2.2)

/-! ## Codes as paths of the tree -/

/-- Following a root-to-leaf path of a tree ends at the leaf that the path is listed
with. -/
theorem follow_path (t : HuffmanNode) (hp : proper t = true) (c : Char) (q : List Char)
    (hm : (c, q) ∈ paths t []) :
    (follow t q).isLeaf = true ∧ (follow t q).character = c := by
  induction t generalizing q with
  | null => simp [proper] at hp
  | node ch f l r ihl ihr =>
    cases hleaf : (l.isNull && r.isNull) with
    | true =>
      rw [paths_node_leaf _ _ _ _ _ hleaf] at hm
      simp only [List.mem_singleton, Prod.mk.injEq] at hm
      rw [hm.2, hm.1]
      exact ⟨hleaf, rfl⟩
    | false =>
      have hpp := proper_node_inner _ _ _ _ hleaf hp
      rcases mem_paths_inner _ _ _ _ hleaf c q hm with ⟨q', rfl, hq⟩ | ⟨q', rfl, hq⟩
      · simp only [follow, if_true]
        exact ihl hpp.1 q' hq
      · have : ¬ ('1' = '0') := by decide
        simp only [follow, this, if_false]
        exact ihr hpp.2 q' hq

/-- Every root-to-leaf path is a string of `'0'` and `'1'`. -/
theorem paths_bits (t : HuffmanNode) (c : Char) (q : List Char) (hm : (c, q) ∈ paths t []) :
    ∀ b ∈ q, b = '0' ∨ b = '1' := by
  induction t generalizing q with
  | null => simp [paths] at hm
  | node ch f l r ihl ihr =>
    cases hleaf : (l.isNull && r.isNull) with
    | true =>
      rw [paths_node_leaf _ _ _ _ _ hleaf] at hm
      simp only [List.mem_singleton, Prod.mk.injEq] at hm
      rw [hm.2]
      simp
    | false =>
      rcases mem_paths_inner _ _ _ _ hleaf c q hm with ⟨q', rfl, hq⟩ | ⟨q', rfl, hq⟩
      · intro b hb
        rcases List.mem_cons.mp hb with e | e
        · exact Or.inl e
        · exact ihl q' hq b e
      · intro b hb
        rcases List.mem_cons.mp hb with e | e
        · exact Or.inr e
        · exact ihr q' hq b e

/-- The table that `generateCodes` writes for the tree built from a non-empty text: the
lone entry with code "0" when the tree is a lone leaf, the list of root-to-leaf paths
otherwise. -/
theorem codes_cases (E : Enumeration) (text : List Char) (hne : text ≠ []) :
    (∃ c n, buildHuffmanTree (E.order (buildFrequencyTable text)) = leaf c n ∧
      generateCodes (buildHuffmanTree (E.order (buildFrequencyTable text))) [] []
        = [(c, ['0'])]) ∨
    ((buildHuffmanTree (E.order (buildFrequencyTable text))).isLeaf = false ∧
      generateCodes (buildHuffmanTree (E.order (buildFrequencyTable text))) [] []
        = paths (buildHuffmanTree (E.order (buildFrequencyTable text))) []) := by
  have hp := (tree_of_text E text hne).1
  cases hl : (buildHuffmanTree (E.order (buildFrequencyTable text))).isLeaf with
  | true =>
    left
    obtain ⟨x, hx⟩ := List.length_eq_one.mp ((isLeaf_iff_leaves _ hp).mp hl)
    have e := eq_leaf_of_leaves_singleton _ hp x.1 x.2 hx
    exact ⟨x.1, x.2, e, by rw [e, generateCodes_leaf]⟩
  | false =>
    right
    have hcodes := generateCodes_eq_paths _ [] [] hp
      (Or.inr (fun h => by
        rw [(isLeaf_iff_leaves _ hp).mpr h] at hl; exact absurd hl (by simp)))
      (tree_keys_nodup E text hne) (by simp)
    rw [List.nil_append] at hcodes
    exact ⟨rfl, hcodes⟩

/-- The keys of the table that `generateCodes` writes are the characters of the leaves,
left to right. -/
theorem codes_keys (E : Enumeration) (text : List Char) (hne : text ≠ []) :
    (generateCodes (buildHuffmanTree (E.order (buildFrequencyTable text))) [] []).map Prod.fst
      = (leaves (buildHuffmanTree (E.order (buildFrequencyTable text)))).map Prod.fst := by
  rcases codes_cases E text hne with ⟨c, n, e1, e2⟩ | ⟨-, e⟩
  · rw [e2, e1, leaves_leaf]; rfl
  · rw [e, paths_keys]

/-- What `compress` leaves in the compressor after a non-empty text: the frequency table
of the text, the table written by `generateCodes` and the built tree. -/
theorem compress_state (E : Enumeration) (s : HuffmanCompressor) (text : List Char)
    (hne : text ≠ []) :
    (compress E s text).2 =
      ⟨buildFrequencyTable text,
        generateCodes (buildHuffmanTree (E.order (buildFrequencyTable text))) [] [],
        buildHuffmanTree (E.order (buildFrequencyTable text))⟩ := by
  rw [compress_eq E s text hne]
  simp only
  rw [encodeText_snd _ _ (fun c hc => codes_keys_mem E text c hc)]

/-! ## The length of the encoded text -/

theorem frequency_merged (l r : HuffmanNode) :
    (merged l r).frequency = l.frequency + r.frequency := rfl

/-- C1. The round trip `decompress(compress(S)) = S` fails on every text made of one
repeated character, such as "AAAA": `compress` returns one `'0'` per character and
leaves a lone leaf as the tree, and `decompress`, given that string, follows the null
left child of the leaf at the first bit and dereferences it. -/
theorem decompress_single_symbol_faults (E : Enumeration) (s : HuffmanCompressor) (c : Char)
    (n : Nat) (hn : 1 ≤ n) :
    (compress E s (List.replicate n c)).1 = List.replicate n '0' ∧
    decompress (compress E s (List.replicate n c)).2 (compress E s (List.replicate n c)).1
      = .error .nullDereference := by
  rw [compress_replicate E s c n hn]
  refine ⟨rfl, ?_⟩
  cases n with
  | zero => omega
  | succ m =>
    simp only [decompress, List.replicate_succ, List.isEmpty_cons, leaf, isNull, Bool.or_self,
      Bool.false_eq_true, if_false]
    have := decodeLoop_leaf c (m + 1) '0' (List.replicate m '0') []
    simp only [leaf] at this
    rw [this]

theorem decompress_single_symbol_faults_witness :
    1 ≤ 4 ∧ (compress Enumeration.insertion HuffmanCompressor.new "AAAA".toList).1
        = "0000".toList ∧
      decompress (compress Enumeration.insertion HuffmanCompressor.new "AAAA".toList).2
        (compress Enumeration.insertion HuffmanCompressor.new "AAAA".toList).1
        = .error .nullDereference :=
  ⟨by decide,
    decompress_single_symbol_faults Enumeration.insertion HuffmanCompressor.new 'A' 4 (by decide)⟩

/-- C2. In the code table that `generateCodes` writes for the tree built from a text, the
code of a character never starts the code of another character.  (The table has entries
only when the text is not empty.) -/
theorem codes_prefix_free (E : Enumeration) (text : List Char) (a b : Char) (ca cb : List Char)
    (hab : a ≠ b)
    (ha : (a, ca) ∈ generateCodes (buildHuffmanTree (E.order (buildFrequencyTable text))) [] [])
    (hb : (b, cb) ∈ generateCodes (buildHuffmanTree (E.order (buildFrequencyTable text))) [] []) :
    ¬ ca <+: cb := by
  have hne : text ≠ [] := by
    intro e
    subst e
    have : E.order (buildFrequencyTable []) = [] :=
      List.perm_nil.mp (E.perm (buildFrequencyTable []))
    rw [this] at ha
    simp [buildHuffmanTree_nil, generateCodes] at ha
  have hp := (tree_of_text E text hne).1
  cases hl : (buildHuffmanTree (E.order (buildFrequencyTable text))).isLeaf with
  | true =>
    obtain ⟨x, hx⟩ := List.length_eq_one.mp ((isLeaf_iff_leaves _ hp).mp hl)
    have e := eq_leaf_of_leaves_singleton _ hp x.1 x.2 hx
    rw [e, generateCodes_leaf] at ha hb
    simp only [List.mem_singleton, Prod.mk.injEq] at ha hb
    exact absurd (ha.1.trans hb.1.symm) hab
  | false =>
    have hcodes := generateCodes_eq_paths _ [] [] hp
      (Or.inr (fun h => by
        rw [(isLeaf_iff_leaves _ hp).mpr h] at hl; exact absurd hl (by simp)))
      (tree_keys_nodup E text hne) (by simp)
    rw [List.nil_append] at hcodes
    rw [hcodes] at ha hb
    have hsym : Symmetric (fun x y : Char × List Char => ¬ x.2 <+: y.2 ∧ ¬ y.2 <+: x.2) :=
      fun x y h => ⟨h.2, h.1⟩
    have := (paths_pairwise _ []).forall hsym ha hb (by
      intro e; injection e with e1 _; exact hab e1)
    exact this.1

theorem codes_prefix_free_witness :
    ('A' ≠ 'B' ∧
      ('A', ['1']) ∈ generateCodes (buildHuffmanTree (Enumeration.insertion.order
        (buildFrequencyTable ['A', 'A', 'B', 'C']))) [] [] ∧
      ('B', ['0', '0']) ∈ generateCodes (buildHuffmanTree (Enumeration.insertion.order
        (buildFrequencyTable ['A', 'A', 'B', 'C']))) [] []) ∧
    ¬ ['1'] <+: ['0', '0'] :=
  ⟨⟨by decide, by decide, by decide⟩,
    codes_prefix_free Enumeration.insertion ['A', 'A', 'B', 'C'] 'A' 'B' ['1'] ['0', '0']
      (by decide) (by decide) (by decide)⟩

/-- C5. The tree and the codes depend on the order in which the entries of one frequency
table are visited: the table of "ABCDEF" (six characters, each once) visited as
A, B, C, D, E, F and as C, B, A, D, E, F gives two different trees, and `'A'` gets the
code 110 from the first and 100 from the second.  The three merged nodes of frequency 2
all carry the character `'\0'`, so `Compare` does not order them. -/
theorem tree_depends_on_visiting_order :
    buildFrequencyTable ['A', 'B', 'C', 'D', 'E', 'F']
      = [('A', 1), ('B', 1), ('C', 1), ('D', 1), ('E', 1), ('F', 1)] ∧
    [('C', 1), ('B', 1), ('A', 1), ('D', 1), ('E', 1), ('F', 1)].Perm
      [('A', 1), ('B', 1), ('C', 1), ('D', 1), ('E', 1), ('F', 1)] ∧
    buildHuffmanTree [('A', 1), ('B', 1), ('C', 1), ('D', 1), ('E', 1), ('F', 1)]
      = merged (merged (leaf 'E' 1) (leaf 'F' 1))
          (merged (merged (leaf 'C' 1) (leaf 'D' 1)) (merged (leaf 'A' 1) (leaf 'B' 1))) ∧
    buildHuffmanTree [('C', 1), ('B', 1), ('A', 1), ('D', 1), ('E', 1), ('F', 1)]
      = merged (merged (leaf 'E' 1) (leaf 'F' 1))
          (merged (merged (leaf 'A' 1) (leaf 'B' 1)) (merged (leaf 'C' 1) (leaf 'D' 1))) ∧
    buildHuffmanTree [('A', 1), ('B', 1), ('C', 1), ('D', 1), ('E', 1), ('F', 1)]
      ≠ buildHuffmanTree [('C', 1), ('B', 1), ('A', 1), ('D', 1), ('E', 1), ('F', 1)] ∧
    mapGet [] 'A' (generateCodes (buildHuffmanTree
      [('A', 1), ('B', 1), ('C', 1), ('D', 1), ('E', 1), ('F', 1)]) [] []) = ['1', '1', '0'] ∧
    mapGet [] 'A' (generateCodes (buildHuffmanTree
      [('C', 1), ('B', 1), ('A', 1), ('D', 1), ('E', 1), ('F', 1)]) [] []) = ['1', '0', '0'] := by
  refine ⟨by decide, ?_, by decide, by decide, by decide, by decide, by decide⟩
  exact (List.Perm.swap _ _ _).trans
    ((List.Perm.cons _ (List.Perm.swap _ _ _)).trans (List.Perm.swap _ _ _))

/-- C7. For the input "ABRACADABRA", whatever the visiting order of the table and the
prior state of the compressor, the frequency table is A:5, B:2, R:2, C:1, D:1, `compress`
returns fewer than 11 * 8 = 88 bits, and `decompress` of these bits returns exactly
"ABRACADABRA". -/
theorem known_example_abracadabra (E : Enumeration) (s : HuffmanCompressor) :
    (compress E s "ABRACADABRA".toList).2.frequencyTable
      = [('A', 5), ('B', 2), ('R', 2), ('C', 1), ('D', 1)] ∧
    (compress E s "ABRACADABRA".toList).1.length < 11 * 8 ∧
    decompress (compress E s "ABRACADABRA".toList).2 (compress E s "ABRACADABRA".toList).1
      = .ok "ABRACADABRA".toList := by
  have ha : 'A' ∈ "ABRACADABRA".toList := by decide
  have hb : 'B' ∈ "ABRACADABRA".toList := by decide
  have hab : 'A' ≠ 'B' := by decide
  refine ⟨?_, ?_, decompress_compress E s _ 'A' 'B' ha hb hab⟩
  · rw [compress_two E s _ 'A' 'B' ha hb hab]
    show buildFrequencyTable "ABRACADABRA".toList = _
    decide
  · have h := compress_length_le E s _ 'A' 'B' ha hb hab
    have h1 : (buildFrequencyTable "ABRACADABRA".toList).length = 5 := by decide
    have h2 : "ABRACADABRA".toList.length = 11 := by decide
    rw [h1, h2] at h
    omega

/-- C8, as the code behaves.  The text "AABC" compresses to 110001.  On 11000, that
stream with its final bit removed, the walk of `decompress` ends at the node above the
leaves of B and C, which is not the root, and `decompress` reports nothing: it returns
"AAB". -/
theorem truncated_stream_dropped :
    (compress Enumeration.insertion HuffmanCompressor.new ['A', 'A', 'B', 'C']).1
      = ['1', '1', '0', '0', '0', '1'] ∧
    decodeLoop (compress Enumeration.insertion HuffmanCompressor.new ['A', 'A', 'B', 'C']).2.root
      ['1', '1', '0', '0', '0']
      ([], (compress Enumeration.insertion HuffmanCompressor.new ['A', 'A', 'B', 'C']).2.root)
      = .ok (['A', 'A', 'B'], merged (leaf 'B' 1) (leaf 'C' 1)) ∧
    merged (leaf 'B' 1) (leaf 'C' 1)
      ≠ (compress Enumeration.insertion HuffmanCompressor.new ['A', 'A', 'B', 'C']).2.root ∧
    decompress (compress Enumeration.insertion HuffmanCompressor.new ['A', 'A', 'B', 'C']).2
      ['1', '1', '0', '0', '0'] = .ok ['A', 'A', 'B'] := by
  refine ⟨by decide, rfl, by decide, rfl⟩

/-- C8, amended.  For a tree built from a text with at least two distinct characters,
decoding reports no error on any string: `decompress` returns the characters that the
walk emitted.  In particular, on the codes of a sequence of characters of the text
followed by a non-empty strict initial part of the code of a character, the walk ends at
a node other than the root and `decompress` returns the characters of the complete
codes: the leftover partial path is dropped without notice. -/
theorem decompress_drops_partial_path (E : Enumeration) (s : HuffmanCompressor)
    (text : List Char) (a b : Char) (ha : a ∈ text) (hb : b ∈ text) (hab : a ≠ b) :
    (∀ bits : List Char, ∃ out sub,
      decodeLoop (compress E s text).2.root bits ([], (compress E s text).2.root)
        = .ok (out, sub) ∧
      decompress (compress E s text).2 bits = .ok out) ∧
    (∀ (msg : List Char) (c : Char) (p : List Char),
      (∀ x ∈ msg, x ∈ text) → c ∈ text →
      p <+: mapGet [] c (compress E s text).2.huffmanCodes →
      p ≠ mapGet [] c (compress E s text).2.huffmanCodes → p ≠ [] →
      ∃ sub, decodeLoop (compress E s text).2.root
          (msg.flatMap (fun x => mapGet [] x (compress E s text).2.huffmanCodes) ++ p)
          ([], (compress E s text).2.root) = .ok (msg, sub) ∧
        sub ≠ (compress E s text).2.root ∧
        decompress (compress E s text).2
          (msg.flatMap (fun x => mapGet [] x (compress E s text).2.huffmanCodes) ++ p)
          = .ok msg) := by
  have hnt : text ≠ [] := List.ne_nil_of_mem ha
  have hpr := (tree_of_text E text hnt).1
  have hi := tree_inner E text a b ha hb hab
  rw [compress_two E s text a b ha hb hab]
  simp only
  constructor
  · intro bits
    obtain ⟨out, sub, e, -, -⟩ := decodeLoop_total _ hpr hi bits [] _ hpr hi
    refine ⟨out, sub, e, ?_⟩
    unfold decompress
    simp only [isNull_eq_false_of_proper _ hpr, Bool.or_false]
    split
    · rename_i hempty
      rw [List.isEmpty_iff.mp hempty] at e
      simp only [decodeLoop, Except.ok.injEq, Prod.mk.injEq] at e
      rw [← e.1]
    · rw [e]
  · intro msg c p hmsg hc hp hne hp0
    have hloop := decodeLoop_message _ hpr hi
      (fun x => mapGet [] x (paths (buildHuffmanTree (E.order (buildFrequencyTable text))) []))
      msg (fun x hx => code_mem_paths E text x (hmsg x hx)) [] p
    rw [List.nil_append] at hloop
    obtain ⟨sub, e1, -, e2, -, -⟩ := decodeLoop_partial
      (buildHuffmanTree (E.order (buildFrequencyTable text))) _ hpr hi c _ p msg
      (code_mem_paths E text c hc) hp hne
    rw [e1] at hloop
    refine ⟨sub, hloop, fun e => ?_, ?_⟩
    · have := e2 hp0
      rw [e] at this
      exact lt_irrefl _ this
    · unfold decompress
      simp only [isNull_eq_false_of_proper _ hpr, Bool.or_false]
      split
      · rename_i hempty
        exact absurd (List.append_eq_nil.mp (List.isEmpty_iff.mp hempty)).2 hp0
      · rw [hloop]

theorem decompress_drops_partial_path_witness :
    ('A' ∈ ['A', 'A', 'B', 'C'] ∧ 'B' ∈ ['A', 'A', 'B', 'C'] ∧ 'A' ≠ 'B') ∧
    ∃ sub, decodeLoop
        (compress Enumeration.insertion HuffmanCompressor.new ['A', 'A', 'B', 'C']).2.root
        (['A', 'A', 'B'].flatMap (fun x => mapGet [] x
          (compress Enumeration.insertion HuffmanCompressor.new
            ['A', 'A', 'B', 'C']).2.huffmanCodes) ++ ['0'])
        ([], (compress Enumeration.insertion HuffmanCompressor.new ['A', 'A', 'B', 'C']).2.root)
          = .ok (['A', 'A', 'B'], sub) ∧
      sub ≠ (compress Enumeration.insertion HuffmanCompressor.new ['A', 'A', 'B', 'C']).2.root ∧
      decompress (compress Enumeration.insertion HuffmanCompressor.new ['A', 'A', 'B', 'C']).2
        (['A', 'A', 'B'].flatMap (fun x => mapGet [] x
          (compress Enumeration.insertion HuffmanCompressor.new
            ['A', 'A', 'B', 'C']).2.huffmanCodes) ++ ['0']) = .ok ['A', 'A', 'B'] :=
  ⟨⟨by decide, by decide, by decide⟩,
    (decompress_drops_partial_path Enumeration.insertion HuffmanCompressor.new
      ['A', 'A', 'B', 'C'] 'A' 'B' (by decide) (by decide) (by decide)).2 ['A', 'A', 'B'] 'C'
      ['0'] (by decide) (by decide) (by decide) (by decide) (by decide)⟩

/-- C10. The call `compress("")` returns the empty string and leaves the frequency table,
the code table and the tree of the compressor exactly as they were, whatever they were. -/
theorem compress_empty (E : Enumeration) (s : HuffmanCompressor) :
    compress E s [] = ([], s) := rfl

/-- C12. The method `buildHuffmanTree` returns the null pointer for the empty table and
the lone leaf for a table of one entry.  For a table of `N ≥ 1` entries the tree is
well-formed (every node has no child or two children), its leaves are the entries of the
table, each once, so there are `N` of them, and `N - 1` nodes have children; the root is
a leaf exactly when `N = 1`. -/
theorem tree_shape (entries : List (Char × Nat)) (hne : entries ≠ []) :
    buildHuffmanTree [] = null ∧
    (∀ c f, buildHuffmanTree [(c, f)] = leaf c f) ∧
    proper (buildHuffmanTree entries) = true ∧
    (leaves (buildHuffmanTree entries)).Perm entries ∧
    (leaves (buildHuffmanTree entries)).length = entries.length ∧
    innerCount (buildHuffmanTree entries) = entries.length - 1 ∧
    ((buildHuffmanTree entries).isLeaf = true ↔ entries.length = 1) := by
  obtain ⟨h1, -, h3⟩ := buildHuffmanTree_spec entries hne
  have h4 := innerCount_add_one _ h1
  have h5 := h3.length_eq
  refine ⟨rfl, buildHuffmanTree_single, h1, h3, h5, by omega, ?_⟩
  rw [isLeaf_iff_leaves _ h1, h5]

theorem tree_shape_witness :
    [('A', 5), ('B', 2), ('R', 2), ('C', 1), ('D', 1)] ≠ [] ∧
    (buildHuffmanTree [] = null ∧
    (∀ c f, buildHuffmanTree [(c, f)] = leaf c f) ∧
    proper (buildHuffmanTree [('A', 5), ('B', 2), ('R', 2), ('C', 1), ('D', 1)]) = true ∧
    (leaves (buildHuffmanTree [('A', 5), ('B', 2), ('R', 2), ('C', 1), ('D', 1)])).Perm
      [('A', 5), ('B', 2), ('R', 2), ('C', 1), ('D', 1)] ∧
    (leaves (buildHuffmanTree [('A', 5), ('B', 2), ('R', 2), ('C', 1), ('D', 1)])).length
      = [('A', 5), ('B', 2), ('R', 2), ('C', 1), ('D', 1)].length ∧
    innerCount (buildHuffmanTree [('A', 5), ('B', 2), ('R', 2), ('C', 1), ('D', 1)])
      = [('A', 5), ('B', 2), ('R', 2), ('C', 1), ('D', 1)].length - 1 ∧
    ((buildHuffmanTree [('A', 5), ('B', 2), ('R', 2), ('C', 1), ('D', 1)]).isLeaf = true
      ↔ [('A', 5), ('B', 2), ('R', 2), ('C', 1), ('D', 1)].length = 1)) :=
  ⟨by decide, tree_shape [('A', 5), ('B', 2), ('R', 2), ('C', 1), ('D', 1)] (by decide)⟩

/-- C13. After `compress` of a non-empty text, the code table has one entry per distinct
character of the text and no other key, every code is a non-empty string of `'0'` and
`'1'`, and when the tree has at least two leaves the table lists the root-to-leaf paths
of the tree: following the code of a character from the root, `'0'` to the left child
and `'1'` to the right child, ends at the leaf that holds the character. -/
theorem code_table_of_paths (E : Enumeration) (s : HuffmanCompressor) (text : List Char)
    (hne : text ≠ []) :
    ((compress E s text).2.huffmanCodes.map Prod.fst).Nodup ∧
    (∀ c, c ∈ (compress E s text).2.huffmanCodes.map Prod.fst ↔ c ∈ text) ∧
    (∀ c q, (c, q) ∈ (compress E s text).2.huffmanCodes →
      q ≠ [] ∧ ∀ b ∈ q, b = '0' ∨ b = '1') ∧
    (2 ≤ (leaves (compress E s text).2.root).length →
      (compress E s text).2.huffmanCodes = paths (compress E s text).2.root [] ∧
      ∀ c q, (c, q) ∈ (compress E s text).2.huffmanCodes →
        (follow (compress E s text).2.root q).isLeaf = true ∧
        (follow (compress E s text).2.root q).character = c) := by
  rw [compress_state E s text hne]
  simp only
  have hp := (tree_of_text E text hne).1
  refine ⟨?_, ?_, ?_, ?_⟩
  · rw [codes_keys E text hne]
    exact tree_keys_nodup E text hne
  · intro c
    rw [codes_keys E text hne]
    exact tree_keys_mem E text hne c
  · intro c q hm
    rcases codes_cases E text hne with ⟨c', n, -, e2⟩ | ⟨hi, e⟩
    · rw [e2] at hm
      simp only [List.mem_singleton, Prod.mk.injEq] at hm
      rw [hm.2]
      simp
    · rw [e] at hm
      exact ⟨paths_ne_nil _ hi c q hm, paths_bits _ c q hm⟩
  · intro h2
    rcases codes_cases E text hne with ⟨c', n, e1, -⟩ | ⟨-, e⟩
    · rw [e1, leaves_leaf] at h2
      simp at h2
    · rw [e]
      exact ⟨rfl, fun c q hm => follow_path _ hp c q hm⟩

theorem code_table_of_paths_witness :
    ['A', 'A', 'B', 'C'] ≠ [] ∧
    ((((compress Enumeration.insertion HuffmanCompressor.new
        ['A', 'A', 'B', 'C']).2.huffmanCodes.map Prod.fst).Nodup ∧
    (∀ c, c ∈ (compress Enumeration.insertion HuffmanCompressor.new
        ['A', 'A', 'B', 'C']).2.huffmanCodes.map Prod.fst ↔ c ∈ ['A', 'A', 'B', 'C']) ∧
    (∀ c q, (c, q) ∈ (compress Enumeration.insertion HuffmanCompressor.new
        ['A', 'A', 'B', 'C']).2.huffmanCodes → q ≠ [] ∧ ∀ b ∈ q, b = '0' ∨ b = '1') ∧
    (2 ≤ (leaves (compress Enumeration.insertion HuffmanCompressor.new
        ['A', 'A', 'B', 'C']).2.root).length →
      (compress Enumeration.insertion HuffmanCompressor.new ['A', 'A', 'B', 'C']).2.huffmanCodes
        = paths (compress Enumeration.insertion HuffmanCompressor.new
            ['A', 'A', 'B', 'C']).2.root [] ∧
      ∀ c q, (c, q) ∈ (compress Enumeration.insertion HuffmanCompressor.new
          ['A', 'A', 'B', 'C']).2.huffmanCodes →
        (follow (compress Enumeration.insertion HuffmanCompressor.new
          ['A', 'A', 'B', 'C']).2.root q).isLeaf = true ∧
        (follow (compress Enumeration.insertion HuffmanCompressor.new
          ['A', 'A', 'B', 'C']).2.root q).character = c)) ∧
    2 ≤ (leaves (compress Enumeration.insertion HuffmanCompressor.new
        ['A', 'A', 'B', 'C']).2.root).length) :=
  ⟨by decide,
    code_table_of_paths Enumeration.insertion HuffmanCompressor.new ['A', 'A', 'B', 'C']
      (by decide),
    by decide⟩

/-- C15. For every text with at least two distinct characters, `decompress` of what
`compress` returned, on the same compressor, returns exactly the text; the equality that
`main` tests on its sample sentence holds. -/
theorem round_trip_two_symbols (E : Enumeration) (s : HuffmanCompressor) (text : List Char)
    (a b : Char) (ha : a ∈ text) (hb : b ∈ text) (hab : a ≠ b) :
    decompress (compress E s text).2 (compress E s text).1 = .ok text :=
  decompress_compress E s text a b ha hb hab

theorem round_trip_two_symbols_witness :
    ('A' ∈ ("ABRACADABRA! This is a test of Huffman coding compression algorithm. " ++
        "The quick brown fox jumps over the lazy dog. Compression efficiency depends on " ++
        "character frequency distribution.").toList ∧
      'B' ∈ ("ABRACADABRA! This is a test of Huffman coding compression algorithm. " ++
        "The quick brown fox jumps over the lazy dog. Compression efficiency depends on " ++
        "character frequency distribution.").toList ∧ 'A' ≠ 'B') ∧
    decompress
      (compress Enumeration.insertion HuffmanCompressor.new
        ("ABRACADABRA! This is a test of Huffman coding compression algorithm. " ++
        "The quick brown fox jumps over the lazy dog. Compression efficiency depends on " ++
        "character frequency distribution.").toList).2
      (compress Enumeration.insertion HuffmanCompressor.new
        ("ABRACADABRA! This is a test of Huffman coding compression algorithm. " ++
        "The quick brown fox jumps over the lazy dog. Compression efficiency depends on " ++
        "character frequency distribution.").toList).1
      = .ok ("ABRACADABRA! This is a test of Huffman coding compression algorithm. " ++
        "The quick brown fox jumps over the lazy dog. Compression efficiency depends on " ++
        "character frequency distribution.").toList :=
  ⟨⟨by decide, by decide, by decide⟩,
    round_trip_two_symbols Enumeration.insertion HuffmanCompressor.new _ 'A' 'B'
      (by decide) (by decide) (by decide)⟩

/-- C17. For a tree built from a text with at least two distinct characters and any
string whatsoever, the walk of `decompress` never follows a missing child: after every
initial part of the string the current node is a node with both children present, and
`decompress` returns a string. -/
theorem decoder_stays_in_tree (E : Enumeration) (s : HuffmanCompressor) (text : List Char)
    (a b : Char) (ha : a ∈ text) (hb : b ∈ text) (hab : a ≠ b) (bits : List Char) :
    (∀ pre, pre <+: bits → ∃ out ch f l r,
      decodeLoop (compress E s text).2.root pre ([], (compress E s text).2.root)
        = .ok (out, node ch f l r) ∧ l.isNull = false ∧ r.isNull = false) ∧
    ∃ out, decompress (compress E s text).2 bits = .ok out := by
  have hnt : text ≠ [] := List.ne_nil_of_mem ha
  have hpr := (tree_of_text E text hnt).1
  have hi := tree_inner E text a b ha hb hab
  rw [compress_state E s text hnt]
  simp only
  constructor
  · intro pre _
    obtain ⟨out, sub, e, h1, h2⟩ := decodeLoop_total _ hpr hi pre [] _ hpr hi
    obtain ⟨ch, f, l, r, rfl, hl, hr, -, -⟩ := children_of_inner sub h1 h2
    exact ⟨out, ch, f, l, r, e, hl, hr⟩
  · obtain ⟨out, sub, e, -, -⟩ := decodeLoop_total _ hpr hi bits [] _ hpr hi
    unfold decompress
    simp only [isNull_eq_false_of_proper _ hpr, Bool.or_false]
    split
    · exact ⟨[], rfl⟩
    · rw [e]
      exact ⟨out, rfl⟩

theorem decoder_stays_in_tree_witness :
    ('A' ∈ ['A', 'A', 'B', 'C'] ∧ 'B' ∈ ['A', 'A', 'B', 'C'] ∧ 'A' ≠ 'B') ∧
    ((∀ pre, pre <+: ['0', 'x', '1', '0'] → ∃ out ch f l r,
      decodeLoop (compress Enumeration.insertion HuffmanCompressor.new
          ['A', 'A', 'B', 'C']).2.root pre
        ([], (compress Enumeration.insertion HuffmanCompressor.new ['A', 'A', 'B', 'C']).2.root)
        = .ok (out, node ch f l r) ∧ l.isNull = false ∧ r.isNull = false) ∧
    ∃ out, decompress (compress Enumeration.insertion HuffmanCompressor.new
      ['A', 'A', 'B', 'C']).2 ['0', 'x', '1', '0'] = .ok out) :=
  ⟨⟨by decide, by decide, by decide⟩,
    decoder_stays_in_tree Enumeration.insertion HuffmanCompressor.new ['A', 'A', 'B', 'C']
      'A' 'B' (by decide) (by decide) (by decide) ['0', 'x', '1', '0']⟩

/-- C20. The method `decompress` returns the empty string whenever the given string is
empty or the compressor holds no tree, as a newly constructed compressor does; the loop
that walks the tree is not entered. -/
theorem decompress_nothing_to_decode (s : HuffmanCompressor) (compressedData : List Char)
    (h : compressedData = [] ∨ s.root = null) :
    decompress s compressedData = .ok [] ∧ HuffmanCompressor.new.root = null := by
  refine ⟨?_, rfl⟩
  unfold decompress
  rcases h with h | h
  · subst h; rfl
  · rw [h]
    simp [isNull]

theorem decompress_nothing_to_decode_witness :
    (['0', '1', '1'] = [] ∨ HuffmanCompressor.new.root = null) ∧
    (decompress HuffmanCompressor.new ['0', '1', '1'] = .ok [] ∧
      HuffmanCompressor.new.root = null) :=
  ⟨Or.inr rfl, decompress_nothing_to_decode HuffmanCompressor.new ['0', '1', '1'] (Or.inr rfl)⟩

end Huffman
